import Mathlib

/-!
# Verification of the CSP solving engine (`CSP.py`, `Sudoku.py`)

A shallow embedding of the repository's constraint-satisfaction solver.

Python dictionaries (`assignment : Dict[Variable, Value]`,
`domains : Dict[Variable, Set[Value]]`) are modelled as insertion-ordered
association lists; Python sets of values are modelled as lists carrying set
semantics (all operations performed on them in the source are
order-independent: `difference`, membership, size, set equality).

The in-place mutation of the working `assignment` and `domains` dictionaries
that the recursive search performs is modelled by explicit state passing: a
recursive solver returns its result together with the final contents of the
two dictionaries it was handed, mirroring what the corresponding Python
objects hold when the call returns.  Python exceptions (`min()` on an empty
sequence, attribute access on `None`) are modelled with `Except Unit`.

The recursion of the three search drivers is bounded by an explicit depth
budget: every recursive call removes the selected variable from the domain
map, so the length of the domain map plus one bounds the recursion depth and
the budget supplied by the entry points is never exhausted on the paths the
Python code can take.
-/

section Model

variable {V : Type} {α : Type} [DecidableEq V] [DecidableEq α]

/-- Python `Dict` as an insertion-ordered association list. -/
abbrev Assignment (V α : Type) := List (V × α)

/-- `Dict[Variable, Set[Value]]`: domain map from variables to value sets. -/
abbrev Domains (V α : Type) := List (V × List α)

/-- `m[k]` as an `Option`: the value of the first entry with key `k`. -/
def lookupEntry {β : Type} (m : List (V × β)) (k : V) : Option β :=
  (m.find? (fun p => p.1 == k)).map Prod.snd

/-- `m.keys()`. -/
def keysOf {β : Type} (m : List (V × β)) : List V := m.map Prod.fst

/-- `m[k] = x`: replace the entry for `k` if present, else append it. -/
def insertEntry {β : Type} : List (V × β) → V → β → List (V × β)
  | [], k, x => [(k, x)]
  | p :: rest, k, x => if p.1 == k then (k, x) :: rest else p :: insertEntry rest k x

/-- `m.pop(k)`: drop the entry for `k` (first occurrence). -/
def removeEntry {β : Type} : List (V × β) → V → List (V × β)
  | [], _ => []
  | p :: rest, k => if p.1 == k then rest else p :: removeEntry rest k

/-- `domains[k]`, defaulting to the empty set when `k` has no entry
(the Python code only ever indexes keys that are present). -/
def lookupD (d : Domains V α) (k : V) : List α := (lookupEntry d k).getD []

/-- Python set equality between two value lists. -/
def setEqB (l1 l2 : List α) : Bool := l1.all (· ∈ l2) && l2.all (· ∈ l1)

/-- Total number of domain values in a domain map. -/
def sumCard (d : Domains V α) : Nat := (d.map (fun p => p.2.length)).sum

/-- The problem-definition interface of class `CSP` together with the
`Variable.startDomain` property: `variables` (here `vars`), `neighbors`,
`isValidPairwise` and the per-variable start domain.  The `MRV`/`LCV`
constructor flags are not carried: the embedding models the deterministic
default configuration `MRV=True, LCV=True`; the disabled branches call
`random.choice` / iterate a hash set and are nondeterministic. -/
structure CSP (V α : Type) where
  vars : List V
  neighbors : V → List V
  isValidPairwise : V → α → V → α → Bool
  startDomain : V → List α

namespace CSP

/-- `CSP.remainingVariables`: the variables not yet assigned. -/
def remainingVariables (csp : CSP V α) (a : Assignment V α) : List V :=
  csp.vars.filter (fun v => decide (v ∉ keysOf a))

/-- `CSP.isValid`: no assigned variable conflicts with an assigned neighbor. -/
def isValid (csp : CSP V α) (a : Assignment V α) : Bool :=
  a.all (fun p =>
    ((csp.neighbors p.1).filter (fun nb => decide (nb ∈ keysOf a))).all (fun nb =>
      match lookupEntry a nb with
      | some w => csp.isValidPairwise p.1 p.2 nb w
      | none => true))

/-- `CSP.isComplete`: valid and no remaining unassigned variables. -/
def isComplete (csp : CSP V α) (a : Assignment V α) : Bool :=
  csp.isValid a && (csp.remainingVariables a).isEmpty

end CSP

/-- `domainsFromAssignment`: every unassigned variable mapped to its full
start domain (`{v: v.startDomain for v in variables if v not in assignment}`). -/
def domainsFromAssignment (csp : CSP V α) (a : Assignment V α) : Domains V α :=
  (csp.vars.filter (fun v => decide (v ∉ keysOf a))).map (fun v => (v, csp.startDomain v))

namespace CSP

/-- One pass of the inner loop of `CSP.forwardChecking` for a single assigned
variable `av ↦ aval`: walk the domain map in order, replace each domain by the
values compatible with the fixed value, and count the removals.  The returned
flag records the source's early `return`, which fires when the *original*
domain object of the entry being processed is empty (`if len(domain) == 0`),
leaving the remaining entries unprocessed. -/
def fcOne (csp : CSP V α) (av : V) (aval : α) : Domains V α → Domains V α × Nat × Bool
  | [] => ([], 0, false)
  | (u, dom) :: rest =>
    let keep := dom.filter (fun x => csp.isValidPairwise av aval u x)
    let removed := dom.length - keep.length
    if dom.isEmpty then ((u, keep) :: rest, removed, true)
    else
      let r := fcOne csp av aval rest
      ((u, keep) :: r.1, removed + r.2.1, r.2.2)

/-- The outer loop of `CSP.forwardChecking` over the adjusted assignment;
an early return inside a pass aborts the remaining passes as well. -/
def fcAll (csp : CSP V α) : List (V × α) → Domains V α → Domains V α × Nat
  | [], d => (d, 0)
  | (av, aval) :: rest, d =>
    let r := fcOne csp av aval d
    if r.2.2 then (r.1, r.2.1)
    else
      let r2 := fcAll csp rest r.1
      (r2.1, r.2.1 + r2.2)

/-- The `adjusted_assignment` of `CSP.forwardChecking`: the whole assignment
when no changed variable is given, else the single entry of that variable. -/
def fcAdjusted (a : Assignment V α) (changed : Option V) : List (V × α) :=
  match changed with
  | none => a
  | some v => a.filter (fun p => p.1 == v)

/-- `CSP.forwardChecking(assignment, domains, variable)`: prune every domain
against the newly assigned variable (or against the whole assignment when
`variable` is `None`), returning the new domain map and the number of pruned
values.  `domains = copy(domains)` plus `set.difference` mean the caller's
map and its sets are never written, which the value semantics of the
embedding renders implicit. -/
def forwardChecking (csp : CSP V α) (a : Assignment V α) (d : Domains V α)
    (changed : Option V) : Domains V α × Nat :=
  fcAll csp (fcAdjusted a changed) d

/-- `CSP.selectVariable` in the default `MRV=True` configuration: the first
domain-map key of minimal domain size; `none` models the `ValueError` that
`min()` raises on an empty domain map. -/
def selectVariable (_csp : CSP V α) (_a : Assignment V α) (d : Domains V α) : Option V :=
  match (d.map (fun p => p.2.length)).min? with
  | none => none
  | some m => (d.find? (fun p => p.2.length == m)).map Prod.fst

/-- The per-value loop of `CSP.orderDomain`: tentatively assign each
candidate, forward check against the other domains, and keep `(value, nr_pruned)`
unless some pruned domain is empty. -/
def lcvData (csp : CSP V α) (a : Assignment V α) (var : V) (rest : Domains V α) :
    List α → List (α × Nat)
  | [] => []
  | val :: vs =>
    let fc := forwardChecking csp (insertEntry a var val) rest (some var)
    if fc.1.any (fun p => p.2.isEmpty) then lcvData csp a var rest vs
    else (val, fc.2) :: lcvData csp a var rest vs

end CSP

/-- Stable insertion of a `(value, count)` pair behind all pairs of smaller
or equal count. -/
def insertByCount (x : α × Nat) : List (α × Nat) → List (α × Nat)
  | [] => [x]
  | y :: ys => if y.2 < x.2 then y :: insertByCount x ys else x :: y :: ys

/-- Python's stable `sorted(..., key=lambda item: item[1])` on the
`(value, nr_pruned)` pairs, as a stable insertion sort. -/
def sortByCount : List (α × Nat) → List (α × Nat)
  | [] => []
  | x :: xs => insertByCount x (sortByCount xs)

namespace CSP

/-- `CSP.orderDomain` in the default `LCV=True` configuration.  Returns the
ordered value list together with the final contents of the `domains`
dictionary, which the source mutates: `domains.pop(var)` at the start and
`domains[var] = domain_to_order` at the end (re-appending the entry at the
end of the dictionary). -/
def orderDomain (csp : CSP V α) (a : Assignment V α) (d : Domains V α) (var : V) :
    List α × Domains V α :=
  let dvar := lookupD d var
  let rest := removeEntry d var
  ((sortByCount (lcvData csp a var rest dvar)).map Prod.fst, rest ++ [(var, dvar)])

/-- `CSP.removeInconsistentValues(domains, var1, var2)`: drop every value of
`var1` with no supporting value in `var2`'s domain; the flag says whether the
domain changed (Python set inequality), and the map is updated only then. -/
def removeInconsistentValues (csp : CSP V α) (d : Domains V α) (v1 v2 : V) :
    Bool × Domains V α :=
  let old := lookupD d v1
  let adjusted := old.filter (fun x => (lookupD d v2).any (fun y => csp.isValidPairwise v1 x v2 y))
  if setEqB adjusted old then (false, d)
  else (true, insertEntry d v1 adjusted)

end CSP

/-- The arc re-enqueueing step of `CSP.ac3`: for every neighbor of `t` not in
the assignment, append the arc `(neighbor, t)` unless it is already pending. -/
def enqueueNeighbors (csp : CSP V α) (a : Assignment V α) (t : V) (q : List (V × V)) :
    List (V × V) :=
  (csp.neighbors t).foldl
    (fun acc n =>
      if n ∈ keysOf a then acc
      else if (n, t) ∈ acc then acc else acc ++ [(n, t)]) q

/-- The initial worklist of `CSP.ac3`: all ordered pairs of distinct
unassigned variables, in nested-loop order. -/
def initialQueue (unassigned : List V) : List (V × V) :=
  unassigned.flatMap (fun v1 => (unassigned.filter (fun v2 => decide (v2 ≠ v1))).map
    (fun v2 => (v1, v2)))

theorem rIV_false_eq (csp : CSP V α) (d : Domains V α) (v1 v2 : V)
    (h : (csp.removeInconsistentValues d v1 v2).1 = false) :
    (csp.removeInconsistentValues d v1 v2).2 = d := by
  unfold CSP.removeInconsistentValues at *
  by_cases hc : setEqB ((lookupD d v1).filter
      (fun x => (lookupD d v2).any (fun y => csp.isValidPairwise v1 x v2 y))) (lookupD d v1)
  · simp [hc]
  · simp [hc] at h

theorem lookupEntry_cons {β : Type} (p : V × β) (rest : List (V × β)) (k : V) :
    lookupEntry (p :: rest) k = if p.1 = k then some p.2 else lookupEntry rest k := by
  by_cases hp : p.1 = k
  · simp [lookupEntry, List.find?, hp]
  · simp [lookupEntry, List.find?, show (p.1 == k) = false by simpa using hp, hp]

theorem lookupEntry_insertEntry_ne {β : Type} (m : List (V × β)) (k k2 : V) (x : β)
    (hne : k2 ≠ k) : lookupEntry (insertEntry m k x) k2 = lookupEntry m k2 := by
  induction m with
  | nil =>
    simp [insertEntry, lookupEntry, List.find?,
      show (k == k2) = false by simpa using Ne.symm hne]
  | cons p rest ih =>
    simp only [insertEntry]
    split
    · next hp =>
      have hp1 : p.1 = k := by simpa using hp
      rw [lookupEntry_cons, lookupEntry_cons, if_neg (Ne.symm hne), if_neg]
      rw [hp1]; exact Ne.symm hne
    · next hp =>
      rw [lookupEntry_cons, lookupEntry_cons]
      by_cases hp2 : p.1 = k2
      · simp [hp2]
      · rw [if_neg hp2, if_neg hp2]; exact ih

theorem insertEntry_mem_keys {β : Type} (m : List (V × β)) (k : V) (x : β) :
    k ∈ keysOf (insertEntry m k x) := by
  induction m with
  | nil => simp [insertEntry, keysOf]
  | cons p rest ih =>
    simp only [insertEntry]
    split
    · simp [keysOf]
    · simp only [keysOf, List.map_cons, List.mem_cons]
      exact Or.inr ih

theorem sumCard_insertEntry {t : List α} (d : Domains V α) (k : V) (s : List α)
    (hk : lookupEntry d k = some t) :
    sumCard (insertEntry d k s) + t.length = sumCard d + s.length := by
  induction d with
  | nil => simp [lookupEntry, List.find?] at hk
  | cons p rest ih =>
    rw [lookupEntry_cons] at hk
    by_cases hp : p.1 = k
    · rw [if_pos hp] at hk
      have ht : t = p.2 := by injection hk with hh; exact hh.symm
      simp only [insertEntry, if_pos (show (p.1 == k) = true by simpa using hp),
        sumCard, List.map_cons, List.sum_cons, ht]
      omega
    · rw [if_neg hp] at hk
      simp only [insertEntry, if_neg (show ¬ (p.1 == k) = true by simpa using hp),
        sumCard, List.map_cons, List.sum_cons]
      have := ih hk
      simp only [sumCard] at this
      omega

theorem setEqB_refl (l : List α) : setEqB l l = true := by
  simp [setEqB, List.all_eq_true]

theorem setEqB_false_ne (l1 l2 : List α) (h : setEqB l1 l2 = false) : l1 ≠ l2 := by
  intro he; rw [he, setEqB_refl] at h; simp at h

theorem rIV_true_sumCard (csp : CSP V α) (d : Domains V α) (v1 v2 : V)
    (h : (csp.removeInconsistentValues d v1 v2).1 = true) :
    sumCard (csp.removeInconsistentValues d v1 v2).2 < sumCard d := by
  unfold CSP.removeInconsistentValues at *
  set pred := fun x => (lookupD d v2).any (fun y => csp.isValidPairwise v1 x v2 y) with hpred
  by_cases hc : setEqB ((lookupD d v1).filter pred) (lookupD d v1)
  · simp [hc] at h
  · simp only [hc, Bool.false_eq_true, if_false]
    have hne := setEqB_false_ne _ _ (by simpa using hc)
    have hsub : ((lookupD d v1).filter pred).Sublist (lookupD d v1) := List.filter_sublist _
    have hlen : ((lookupD d v1).filter pred).length < (lookupD d v1).length := by
      rcases Nat.lt_or_ge ((lookupD d v1).filter pred).length (lookupD d v1).length with hl | hl
      · exact hl
      · exact absurd (hsub.eq_of_length (Nat.le_antisymm hsub.length_le hl)) hne
    have hsome : lookupEntry d v1 = some (lookupD d v1) := by
      cases hle : lookupEntry d v1 with
      | none =>
        exfalso
        apply hne
        simp [lookupD, hle]
      | some t => simp [lookupD, hle]
    have := sumCard_insertEntry d v1 ((lookupD d v1).filter pred) hsome
    omega

namespace CSP

/-- The `while len(queue) > 0` loop of `CSP.ac3`: pop the front arc, remove
the unsupported values of its tail, re-enqueue the affected arcs when the
tail's domain changed, and fail with `none` (the Python `return None`) as
soon as the processed tail's domain is empty. -/
def ac3Loop (csp : CSP V α) (a : Assignment V α) :
    Domains V α → List (V × V) → Option (Domains V α)
  | d, [] => some d
  | d, (t, hd) :: rest =>
    let r := csp.removeInconsistentValues d t hd
    let q1 := if r.1 then enqueueNeighbors csp a t rest else rest
    if (lookupD r.2 t).isEmpty then none
    else ac3Loop csp a r.2 q1
termination_by d q => (sumCard d, q.length)
decreasing_by
  by_cases hc : (csp.removeInconsistentValues d t hd).1 = true
  · exact Prod.Lex.left _ _ (rIV_true_sumCard csp d t hd hc)
  · have h2 := rIV_false_eq csp d t hd (by simpa using hc)
    rw [h2]
    rw [dif_neg hc]
    exact Prod.Lex.right _ (by simp)

/-- `CSP.ac3(assignment, domains, variable)`.  The `variable` parameter is
accepted but, as in the source, never used: the worklist is seeded with all
ordered pairs of distinct unassigned variables.  `domains = copy(domains)`
gives the value semantics of the embedding. -/
def ac3 (csp : CSP V α) (a : Assignment V α) (d : Domains V α)
    (_changed : Option V) : Option (Domains V α) :=
  ac3Loop csp a d (initialQueue (csp.remainingVariables a))

/-- The result of a recursive search call: `.error ()` models an uncaught
Python exception, and an `.ok` result carries the returned value together
with the final contents of the mutable `assignment` and `domains`
dictionaries the call received. -/
abbrev SearchRes (V α : Type) :=
  Except Unit (Option (Assignment V α) × Assignment V α × Domains V α)

/-- The `for value in self.orderDomain(...)` loop of `CSP._solveBruteForce`:
assign the value, pop the variable's domain, recurse (through `recur`) when
the extended assignment is valid, and restore `assignment` and `domains`
before the next candidate.  The recursive call receives — and may mutate —
the same `domains` dictionary, so the restoration acts on the state the
recursion returned. -/
def bfVals (csp : CSP V α)
    (recur : Assignment V α → Domains V α → SearchRes V α) (var : V) :
    List α → Assignment V α → Domains V α → SearchRes V α
  | [], a, d => .ok (none, a, d)
  | val :: vs, a, d =>
    let a1 := insertEntry a var val
    let prev := lookupD d var
    let d1 := removeEntry d var
    if csp.isValid a1 then
      match recur a1 d1 with
      | .error e => .error e
      | .ok (some res, a2, d2) => .ok (some res, a2, d2)
      | .ok (none, a2, d2) =>
        bfVals csp recur var vs (removeEntry a2 var) (insertEntry d2 var prev)
    else bfVals csp recur var vs (removeEntry a1 var) (insertEntry d1 var prev)

/-- `CSP._solveBruteForce` with an explicit recursion-depth budget; each
recursive call removes the selected variable from the domain map, so
`domains.length + 1` budget at the entry point is never exhausted.
`selectVariable` returning `none` is the `ValueError` of `min()` on an empty
domain map (reachable from a complete but invalid initial assignment). -/
def solveBruteForceAux (csp : CSP V α) :
    Nat → Assignment V α → Domains V α → SearchRes V α
  | 0, _, _ => .error ()
  | fuel + 1, a, d =>
    if csp.isComplete a then .ok (some a, a, d)
    else
      match csp.selectVariable a d with
      | none => .error ()
      | some var =>
        let od := csp.orderDomain a d var
        bfVals csp (solveBruteForceAux csp fuel) var od.1 a od.2

/-- `CSP.solveBruteForce`: `deepcopy` the initial assignment (value
semantics), build the start domains and run the backtracking search. -/
def solveBruteForce (csp : CSP V α) (init : Assignment V α) :
    Except Unit (Option (Assignment V α)) :=
  let d := domainsFromAssignment csp init
  (solveBruteForceAux csp (d.length + 1) init d).map (fun r => r.1)

/-- The value loop of `CSP._solveForwardChecking`.  Unlike the brute-force
variant, the recursion receives the fresh `pruned_domains` map returned by
`forwardChecking`; the restoration `domains[var] = prev_domain` therefore
acts on the loop's own popped dictionary `d1`, not on the recursion's final
state. -/
def fcVals (csp : CSP V α)
    (recur : Assignment V α → Domains V α → SearchRes V α) (var : V) :
    List α → Assignment V α → Domains V α → SearchRes V α
  | [], a, d => .ok (none, a, d)
  | val :: vs, a, d =>
    let a1 := insertEntry a var val
    let prev := lookupD d var
    let d1 := removeEntry d var
    let fc := forwardChecking csp a1 d1 (some var)
    if fc.1.all (fun p => !p.2.isEmpty) then
      match recur a1 fc.1 with
      | .error e => .error e
      | .ok (some res, a2, d2) => .ok (some res, a2, d2)
      | .ok (none, a2, _) =>
        fcVals csp recur var vs (removeEntry a2 var) (insertEntry d1 var prev)
    else fcVals csp recur var vs (removeEntry a1 var) (insertEntry d1 var prev)

/-- `CSP._solveForwardChecking` with an explicit depth budget. -/
def solveForwardCheckingAux (csp : CSP V α) :
    Nat → Assignment V α → Domains V α → SearchRes V α
  | 0, _, _ => .error ()
  | fuel + 1, a, d =>
    if csp.isComplete a then .ok (some a, a, d)
    else
      match csp.selectVariable a d with
      | none => .error ()
      | some var =>
        let od := csp.orderDomain a d var
        fcVals csp (solveForwardCheckingAux csp fuel) var od.1 a od.2

/-- `CSP.solveForwardChecking`: copy the initial assignment, build the start
domains, run one forward-checking pass over the whole assignment and search. -/
def solveForwardChecking (csp : CSP V α) (init : Assignment V α) :
    Except Unit (Option (Assignment V α)) :=
  let d0 := domainsFromAssignment csp init
  let d := (forwardChecking csp init d0 none).1
  (solveForwardCheckingAux csp (d.length + 1) init d).map (fun r => r.1)

/-- The value loop of `CSP._solveAC3`: forward checking seeded with the new
variable, then `ac3`; recurse only when `ac3` returned domains.  As in the
forward-checking variant, restoration acts on the loop's popped dictionary. -/
def acVals (csp : CSP V α)
    (recur : Assignment V α → Domains V α → SearchRes V α) (var : V) :
    List α → Assignment V α → Domains V α → SearchRes V α
  | [], a, d => .ok (none, a, d)
  | val :: vs, a, d =>
    let a1 := insertEntry a var val
    let prev := lookupD d var
    let d1 := removeEntry d var
    let fc := forwardChecking csp a1 d1 (some var)
    match ac3 csp a1 fc.1 (some var) with
    | some nd =>
      match recur a1 nd with
      | .error e => .error e
      | .ok (some res, a2, d2) => .ok (some res, a2, d2)
      | .ok (none, a2, _) =>
        acVals csp recur var vs (removeEntry a2 var) (insertEntry d1 var prev)
    | none => acVals csp recur var vs (removeEntry a1 var) (insertEntry d1 var prev)

/-- `CSP._solveAC3` with an explicit depth budget. -/
def solveAC3Aux (csp : CSP V α) :
    Nat → Assignment V α → Domains V α → SearchRes V α
  | 0, _, _ => .error ()
  | fuel + 1, a, d =>
    if csp.isComplete a then .ok (some a, a, d)
    else
      match csp.selectVariable a d with
      | none => .error ()
      | some var =>
        let od := csp.orderDomain a d var
        acVals csp (solveAC3Aux csp fuel) var od.1 a od.2

/-- `CSP.solveAC3`: copy the initial assignment, build the start domains and
run `ac3` on them — without checking its result for `None`.  When `ac3`
fails, `_solveAC3(initialAssignment, None)` is still called: it returns the
assignment if `isComplete` holds, and otherwise crashes with an
`AttributeError` inside `selectVariable` (`None.items()`), modelled by
`.error ()`. -/
def solveAC3 (csp : CSP V α) (init : Assignment V α) :
    Except Unit (Option (Assignment V α)) :=
  let d0 := domainsFromAssignment csp init
  match ac3 csp init d0 none with
  | none => if csp.isComplete init then .ok (some init) else .error ()
  | some d => (solveAC3Aux csp (d.length + 1) init d).map (fun r => r.1)

end CSP

end Model

section DictLemmas

variable {V : Type} {α : Type} [DecidableEq V] [DecidableEq α] {β : Type}

theorem lookupEntry_some_mem {m : List (V × β)} {k : V} {x : β}
    (h : lookupEntry m k = some x) : (k, x) ∈ m := by
  unfold lookupEntry at h
  cases hf : m.find? (fun p => p.1 == k) with
  | none => rw [hf] at h; simp at h
  | some p =>
    rw [hf] at h
    have hk : p.1 = k := by simpa using List.find?_some hf
    have hm := List.mem_of_find?_eq_some hf
    simp only [Option.map, Option.some.injEq] at h
    have : p = (k, x) := by
      cases p; simp only [Prod.mk.injEq]; exact ⟨hk, by simpa using h⟩
    rwa [this] at hm

theorem lookupEntry_some_key_mem {m : List (V × β)} {k : V} {x : β}
    (h : lookupEntry m k = some x) : k ∈ keysOf m := by
  have := lookupEntry_some_mem h
  exact List.mem_map_of_mem Prod.fst this

theorem lookupEntry_eq_none {m : List (V × β)} {k : V} (h : k ∉ keysOf m) :
    lookupEntry m k = none := by
  cases hl : lookupEntry m k with
  | none => rfl
  | some x => exact absurd (lookupEntry_some_key_mem hl) h

theorem lookupEntry_isSome_of_mem {m : List (V × β)} {k : V} (h : k ∈ keysOf m) :
    ∃ x, lookupEntry m k = some x := by
  induction m with
  | nil => simp [keysOf] at h
  | cons p rest ih =>
    rw [lookupEntry_cons]
    by_cases hp : p.1 = k
    · exact ⟨p.2, by rw [if_pos hp]⟩
    · rw [if_neg hp]
      apply ih
      simp only [keysOf, List.map_cons, List.mem_cons] at h
      exact h.resolve_left (fun he => hp he.symm)

theorem insertEntry_not_mem_append {m : List (V × β)} {k : V} (x : β) (h : k ∉ keysOf m) :
    insertEntry m k x = m ++ [(k, x)] := by
  induction m with
  | nil => rfl
  | cons p rest ih =>
    simp only [keysOf, List.map_cons, List.mem_cons] at h
    push_neg at h
    simp only [insertEntry, if_neg (show ¬ (p.1 == k) = true by simpa using Ne.symm h.1),
      List.cons_append, List.cons.injEq, true_and]
    exact ih h.2

theorem removeEntry_append_not_mem {m : List (V × β)} {k : V} (x : β) (h : k ∉ keysOf m) :
    removeEntry (m ++ [(k, x)]) k = m := by
  induction m with
  | nil => simp [removeEntry]
  | cons p rest ih =>
    simp only [keysOf, List.map_cons, List.mem_cons] at h
    push_neg at h
    simp only [List.cons_append, removeEntry,
      if_neg (show ¬ (p.1 == k) = true by simpa using Ne.symm h.1), List.cons.injEq, true_and]
    exact ih h.2

theorem removeEntry_insertEntry {m : List (V × β)} {k : V} (x : β) (h : k ∉ keysOf m) :
    removeEntry (insertEntry m k x) k = m := by
  rw [insertEntry_not_mem_append x h]
  exact removeEntry_append_not_mem x h

theorem keysOf_removeEntry (m : List (V × β)) (k : V) :
    keysOf (removeEntry m k) = (keysOf m).erase k := by
  induction m with
  | nil => rfl
  | cons p rest ih =>
    by_cases hp : p.1 = k
    · subst hp; simp [removeEntry, keysOf, List.erase_cons]
    · simp [removeEntry, keysOf, List.erase_cons, hp,
        show (p.1 == k) = false by simpa using hp]
      simpa [keysOf] using ih

theorem keysOf_insertEntry_mem {m : List (V × β)} {k : V} (x : β) (h : k ∈ keysOf m) :
    keysOf (insertEntry m k x) = keysOf m := by
  induction m with
  | nil => simp [keysOf] at h
  | cons p rest ih =>
    by_cases hp : p.1 = k
    · simp [insertEntry, if_pos (show (p.1 == k) = true by simpa using hp), keysOf, hp]
    · simp only [keysOf, List.map_cons, List.mem_cons] at h
      have h2 : k ∈ keysOf rest := h.resolve_left (fun he => hp he.symm)
      simp only [insertEntry, if_neg (show ¬ (p.1 == k) = true by simpa using hp), keysOf,
        List.map_cons]
      simpa [keysOf] using ih h2

theorem keysOf_insertEntry_not_mem {m : List (V × β)} {k : V} (x : β) (h : k ∉ keysOf m) :
    keysOf (insertEntry m k x) = keysOf m ++ [k] := by
  rw [insertEntry_not_mem_append x h]
  simp [keysOf]

theorem keysOf_insertEntry_subset (m : List (V × β)) (k : V) (x : β) :
    keysOf (insertEntry m k x) ⊆ keysOf m ++ [k] := by
  by_cases h : k ∈ keysOf m
  · rw [keysOf_insertEntry_mem x h]; exact fun v hv => List.mem_append_left _ hv
  · rw [keysOf_insertEntry_not_mem x h]; exact List.Subset.refl _

theorem nodup_keysOf_insertEntry {m : List (V × β)} {k : V} (x : β)
    (h : (keysOf m).Nodup) : (keysOf (insertEntry m k x)).Nodup := by
  by_cases hk : k ∈ keysOf m
  · rwa [keysOf_insertEntry_mem x hk]
  · rw [keysOf_insertEntry_not_mem x hk]
    simpa [List.nodup_append] using ⟨h, hk⟩

theorem nodup_keysOf_removeEntry {m : List (V × β)} {k : V}
    (h : (keysOf m).Nodup) : (keysOf (removeEntry m k)).Nodup := by
  rw [keysOf_removeEntry]
  exact h.erase k

theorem lookupEntry_removeEntry_ne {m : List (V × β)} {k k2 : V} (hne : k2 ≠ k) :
    lookupEntry (removeEntry m k) k2 = lookupEntry m k2 := by
  induction m with
  | nil => rfl
  | cons p rest ih =>
    by_cases hp : p.1 = k
    · rw [removeEntry, if_pos (show (p.1 == k) = true by simpa using hp), lookupEntry_cons,
        if_neg (fun he => hne (by rw [← he, hp]))]
    · rw [removeEntry, if_neg (show ¬ (p.1 == k) = true by simpa using hp), lookupEntry_cons,
        lookupEntry_cons]
      by_cases hp2 : p.1 = k2
      · rw [if_pos hp2, if_pos hp2]
      · rw [if_neg hp2, if_neg hp2]; exact ih

theorem lookupEntry_insertEntry_self (m : List (V × β)) (k : V) (x : β) :
    lookupEntry (insertEntry m k x) k = some x := by
  induction m with
  | nil => simp [insertEntry, lookupEntry, List.find?]
  | cons p rest ih =>
    by_cases hp : p.1 = k
    · rw [insertEntry, if_pos (show (p.1 == k) = true by simpa using hp), lookupEntry_cons,
        if_pos rfl]
    · rw [insertEntry, if_neg (show ¬ (p.1 == k) = true by simpa using hp), lookupEntry_cons,
        if_neg hp]
      exact ih

theorem selectVariable_mem {csp : CSP V α} {a : Assignment V α} {d : Domains V α} {var : V}
    (h : csp.selectVariable a d = some var) : var ∈ keysOf d := by
  unfold CSP.selectVariable at h
  split at h
  · simp at h
  next m2 heq =>
    cases hf : d.find? (fun p => p.2.length == m2) with
    | none => rw [hf] at h; simp at h
    | some p =>
      rw [hf] at h
      simp only [Option.map, Option.some.injEq] at h
      have := List.mem_of_find?_eq_some hf
      rw [← h]
      exact List.mem_map_of_mem Prod.fst this

theorem exceptMap_ok {ε σ τ : Type} (f : σ → τ) (e : Except ε σ) (y : τ)
    (h : e.map f = .ok y) : ∃ x, e = .ok x ∧ f x = y := by
  cases e with
  | error e2 => simp [Except.map] at h
  | ok x => exact ⟨x, rfl, by simpa [Except.map] using h⟩

end DictLemmas

section EngineLemmas

variable {V : Type} {α : Type} [DecidableEq V] [DecidableEq α]

theorem lookupD_insertEntry_self (d : Domains V α) (k : V) (s : List α) :
    lookupD (insertEntry d k s) k = s := by
  simp [lookupD, lookupEntry_insertEntry_self]

theorem lookupD_insertEntry_ne (d : Domains V α) (k k2 : V) (s : List α) (hne : k2 ≠ k) :
    lookupD (insertEntry d k s) k2 = lookupD d k2 := by
  simp [lookupD, lookupEntry_insertEntry_ne d k k2 s hne]

theorem lookupD_removeEntry_ne (d : Domains V α) (k k2 : V) (hne : k2 ≠ k) :
    lookupD (removeEntry d k) k2 = lookupD d k2 := by
  simp [lookupD, lookupEntry_removeEntry_ne hne]

theorem fcOne_keysOf (csp : CSP V α) (av : V) (aval : α) (d : Domains V α) :
    keysOf (csp.fcOne av aval d).1 = keysOf d := by
  induction d with
  | nil => rfl
  | cons p rest ih =>
    cases p with
    | mk u dom =>
      simp only [CSP.fcOne, keysOf]
      split
      · simp [keysOf]
      · simp only [List.map_cons]
        simpa [keysOf] using ih

theorem fcAll_keysOf (csp : CSP V α) (l : List (V × α)) (d : Domains V α) :
    keysOf (csp.fcAll l d).1 = keysOf d := by
  induction l generalizing d with
  | nil => rfl
  | cons p rest ih =>
    cases p with
    | mk av aval =>
      by_cases he : (csp.fcOne av aval d).2.2
      · simp only [CSP.fcAll, if_pos he]
        exact fcOne_keysOf csp av aval d
      · simp only [CSP.fcAll, if_neg he]
        rw [ih (csp.fcOne av aval d).1, fcOne_keysOf]

theorem forwardChecking_keysOf (csp : CSP V α) (a : Assignment V α) (d : Domains V α)
    (ov : Option V) : keysOf (CSP.forwardChecking csp a d ov).1 = keysOf d :=
  fcAll_keysOf csp _ d

theorem rIV_keysOf (csp : CSP V α) (d : Domains V α) (v1 v2 : V) :
    keysOf (csp.removeInconsistentValues d v1 v2).2 = keysOf d := by
  by_cases hc : (csp.removeInconsistentValues d v1 v2).1 = true
  · unfold CSP.removeInconsistentValues at *
    by_cases hs : setEqB ((lookupD d v1).filter
        (fun x => (lookupD d v2).any (fun y => csp.isValidPairwise v1 x v2 y))) (lookupD d v1)
    · simp [hs] at hc
    · simp only [show setEqB ((lookupD d v1).filter
          (fun x => (lookupD d v2).any (fun y => csp.isValidPairwise v1 x v2 y)))
          (lookupD d v1) = false by simpa using hs, Bool.false_eq_true, if_false]
      have hmem : v1 ∈ keysOf d := by
        cases hl : lookupEntry d v1 with
        | none =>
          exfalso
          apply setEqB_false_ne _ _ (by simpa using hs)
          simp [lookupD, hl]
        | some t => exact lookupEntry_some_key_mem hl
      exact keysOf_insertEntry_mem _ hmem
  · rw [rIV_false_eq csp d v1 v2 (by simpa using hc)]

theorem rIV_lookup_ne (csp : CSP V α) (d : Domains V α) (v1 v2 k : V) (hne : k ≠ v1) :
    lookupD (csp.removeInconsistentValues d v1 v2).2 k = lookupD d k := by
  unfold CSP.removeInconsistentValues
  by_cases hs : setEqB ((lookupD d v1).filter
      (fun x => (lookupD d v2).any (fun y => csp.isValidPairwise v1 x v2 y))) (lookupD d v1)
  · simp [hs]
  · simp only [show setEqB ((lookupD d v1).filter
        (fun x => (lookupD d v2).any (fun y => csp.isValidPairwise v1 x v2 y)))
        (lookupD d v1) = false by simpa using hs, Bool.false_eq_true, if_false]
    exact lookupD_insertEntry_ne d v1 k _ hne

theorem rIV_lookup_subset (csp : CSP V α) (d : Domains V α) (v1 v2 k : V) :
    lookupD (csp.removeInconsistentValues d v1 v2).2 k ⊆ lookupD d k := by
  by_cases hne : k = v1
  · subst hne
    unfold CSP.removeInconsistentValues
    by_cases hs : setEqB ((lookupD d k).filter
        (fun x => (lookupD d v2).any (fun y => csp.isValidPairwise k x v2 y))) (lookupD d k)
    · simp [hs]
    · simp only [show setEqB ((lookupD d k).filter
          (fun x => (lookupD d v2).any (fun y => csp.isValidPairwise k x v2 y)))
          (lookupD d k) = false by simpa using hs, Bool.false_eq_true, if_false]
      rw [lookupD_insertEntry_self]
      exact fun x hx => List.mem_of_mem_filter hx
  · rw [rIV_lookup_ne csp d v1 v2 k hne]
    exact List.Subset.refl _

theorem ac3Loop_nil (csp : CSP V α) (a : Assignment V α) (d : Domains V α) :
    csp.ac3Loop a d [] = some d := by
  rw [CSP.ac3Loop]

theorem ac3Loop_cons (csp : CSP V α) (a : Assignment V α) (d : Domains V α)
    (t hd : V) (rest : List (V × V)) :
    csp.ac3Loop a d ((t, hd) :: rest) =
      (if (lookupD (csp.removeInconsistentValues d t hd).2 t).isEmpty = true then none
       else csp.ac3Loop a (csp.removeInconsistentValues d t hd).2
         (if (csp.removeInconsistentValues d t hd).1 = true then
            enqueueNeighbors csp a t rest else rest)) := by
  rw [CSP.ac3Loop]

theorem ac3Loop_keysOf (csp : CSP V α) (a : Assignment V α) (d : Domains V α)
    (q : List (V × V)) :
    ∀ d2, csp.ac3Loop a d q = some d2 → keysOf d2 = keysOf d := by
  induction d, q using CSP.ac3Loop.induct csp a with
  | case1 d =>
    intro d2 h
    rw [ac3Loop_nil] at h
    simp only [Option.some.injEq] at h
    rw [h]
  | case2 d t hd rest r hempty =>
    intro d2 h
    rw [ac3Loop_cons, if_pos hempty] at h
    simp at h
  | case3 d t hd rest r q1 hempty ih =>
    intro d2 h
    rw [ac3Loop_cons, if_neg hempty] at h
    rw [ih d2 h]
    exact rIV_keysOf csp d t hd

theorem ac3Loop_lookup_subset (csp : CSP V α) (a : Assignment V α) (d : Domains V α)
    (q : List (V × V)) :
    ∀ d2, csp.ac3Loop a d q = some d2 → ∀ k, lookupD d2 k ⊆ lookupD d k := by
  induction d, q using CSP.ac3Loop.induct csp a with
  | case1 d =>
    intro d2 h k
    rw [ac3Loop_nil] at h
    simp only [Option.some.injEq] at h
    rw [← h]
    exact List.Subset.refl _
  | case2 d t hd rest r hempty =>
    intro d2 h
    rw [ac3Loop_cons, if_pos hempty] at h
    simp at h
  | case3 d t hd rest r q1 hempty ih =>
    intro d2 h k
    rw [ac3Loop_cons, if_neg hempty] at h
    exact fun x hx => rIV_lookup_subset csp d t hd k (ih d2 h k hx)

theorem ac3Loop_no_new_empty (csp : CSP V α) (a : Assignment V α) (d : Domains V α)
    (q : List (V × V)) :
    ∀ d2, csp.ac3Loop a d q = some d2 → ∀ k, lookupD d2 k = [] → lookupD d k = [] := by
  induction d, q using CSP.ac3Loop.induct csp a with
  | case1 d =>
    intro d2 h k hk
    rw [ac3Loop_nil] at h
    simp only [Option.some.injEq] at h
    rwa [h]
  | case2 d t hd rest r hempty =>
    intro d2 h
    rw [ac3Loop_cons, if_pos hempty] at h
    simp at h
  | case3 d t hd rest r q1 hempty ih =>
    intro d2 h k hk
    rw [ac3Loop_cons, if_neg hempty] at h
    by_cases hkt : k = t
    · subst hkt
      exfalso
      have h2 := ih d2 h k hk
      exact hempty (by simp [List.isEmpty_iff, h2])
    · rw [← rIV_lookup_ne csp d t hd k hkt]
      exact ih d2 h k hk

/-- Contract of a recursive solver call for the solution-soundness argument:
an `ok` result preserves duplicate-freedom of the threaded assignment keys,
and any returned solution passed the `isComplete` gate and has
duplicate-free keys. -/
def SolOK (csp : CSP V α) (f : Assignment V α → Domains V α → CSP.SearchRes V α) : Prop :=
  ∀ a d r a2 d2, f a d = .ok (r, a2, d2) → (keysOf a).Nodup →
    (keysOf a2).Nodup ∧ ∀ sol, r = some sol → csp.isComplete sol = true ∧ (keysOf sol).Nodup

theorem bfVals_solOK (csp : CSP V α)
    (recur : Assignment V α → Domains V α → CSP.SearchRes V α)
    (hrec : SolOK csp recur) (var : V) :
    ∀ vs a d r a2 d2, csp.bfVals recur var vs a d = .ok (r, a2, d2) → (keysOf a).Nodup →
      (keysOf a2).Nodup ∧
        ∀ sol, r = some sol → csp.isComplete sol = true ∧ (keysOf sol).Nodup := by
  intro vs
  induction vs with
  | nil =>
    intro a d r a2 d2 h hnod
    rw [CSP.bfVals] at h
    injection h with h2
    injection h2 with hr h3
    injection h3 with ha hd
    subst hr; subst ha
    exact ⟨hnod, fun sol hs => by simp at hs⟩
  | cons val vs ih =>
    intro a d r a2 d2 h hnod
    rw [CSP.bfVals] at h
    have hnod1 : (keysOf (insertEntry a var val)).Nodup := nodup_keysOf_insertEntry val hnod
    split at h
    · split at h
      · exact absurd h (by simp)
      · next res a2x d2x heq =>
        injection h with h2
        injection h2 with hr h3
        injection h3 with ha hd
        subst hr; subst ha
        have := hrec _ _ _ _ _ heq hnod1
        exact ⟨this.1, fun sol hs => by
          have hres := this.2 res rfl
          injection hs with hs2
          rw [← hs2]
          exact hres⟩
      · next res a2x d2x heq =>
        have hx := hrec _ _ _ _ _ heq hnod1
        exact ih _ _ _ _ _ h (nodup_keysOf_removeEntry hx.1)
    · exact ih _ _ _ _ _ h (nodup_keysOf_removeEntry hnod1)

theorem fcVals_solOK (csp : CSP V α)
    (recur : Assignment V α → Domains V α → CSP.SearchRes V α)
    (hrec : SolOK csp recur) (var : V) :
    ∀ vs a d r a2 d2, csp.fcVals recur var vs a d = .ok (r, a2, d2) → (keysOf a).Nodup →
      (keysOf a2).Nodup ∧
        ∀ sol, r = some sol → csp.isComplete sol = true ∧ (keysOf sol).Nodup := by
  intro vs
  induction vs with
  | nil =>
    intro a d r a2 d2 h hnod
    rw [CSP.fcVals] at h
    injection h with h2
    injection h2 with hr h3
    injection h3 with ha hd
    subst hr; subst ha
    exact ⟨hnod, fun sol hs => by simp at hs⟩
  | cons val vs ih =>
    intro a d r a2 d2 h hnod
    rw [CSP.fcVals] at h
    have hnod1 : (keysOf (insertEntry a var val)).Nodup := nodup_keysOf_insertEntry val hnod
    split at h
    · split at h
      · exact absurd h (by simp)
      · next res a2x d2x heq =>
        injection h with h2
        injection h2 with hr h3
        injection h3 with ha hd
        subst hr; subst ha
        have := hrec _ _ _ _ _ heq hnod1
        exact ⟨this.1, fun sol hs => by
          have hres := this.2 res rfl
          injection hs with hs2
          rw [← hs2]
          exact hres⟩
      · next res a2x d2x heq =>
        have hx := hrec _ _ _ _ _ heq hnod1
        exact ih _ _ _ _ _ h (nodup_keysOf_removeEntry hx.1)
    · exact ih _ _ _ _ _ h (nodup_keysOf_removeEntry hnod1)

theorem acVals_solOK (csp : CSP V α)
    (recur : Assignment V α → Domains V α → CSP.SearchRes V α)
    (hrec : SolOK csp recur) (var : V) :
    ∀ vs a d r a2 d2, csp.acVals recur var vs a d = .ok (r, a2, d2) → (keysOf a).Nodup →
      (keysOf a2).Nodup ∧
        ∀ sol, r = some sol → csp.isComplete sol = true ∧ (keysOf sol).Nodup := by
  intro vs
  induction vs with
  | nil =>
    intro a d r a2 d2 h hnod
    rw [CSP.acVals] at h
    injection h with h2
    injection h2 with hr h3
    injection h3 with ha hd
    subst hr; subst ha
    exact ⟨hnod, fun sol hs => by simp at hs⟩
  | cons val vs ih =>
    intro a d r a2 d2 h hnod
    rw [CSP.acVals] at h
    have hnod1 : (keysOf (insertEntry a var val)).Nodup := nodup_keysOf_insertEntry val hnod
    split at h
    · split at h
      · exact absurd h (by simp)
      · next res a2x d2x heq =>
        injection h with h2
        injection h2 with hr h3
        injection h3 with ha hd
        subst hr; subst ha
        have := hrec _ _ _ _ _ heq hnod1
        exact ⟨this.1, fun sol hs => by
          have hres := this.2 res rfl
          injection hs with hs2
          rw [← hs2]
          exact hres⟩
      · next res a2x d2x heq =>
        have hx := hrec _ _ _ _ _ heq hnod1
        exact ih _ _ _ _ _ h (nodup_keysOf_removeEntry hx.1)
    · exact ih _ _ _ _ _ h (nodup_keysOf_removeEntry hnod1)

theorem solveBruteForceAux_solOK (csp : CSP V α) :
    ∀ fuel, SolOK csp (csp.solveBruteForceAux fuel) := by
  intro fuel
  induction fuel with
  | zero => intro a d r a2 d2 h; rw [CSP.solveBruteForceAux] at h; exact absurd h (by simp)
  | succ fuel ih =>
    intro a d r a2 d2 h hnod
    rw [CSP.solveBruteForceAux] at h
    split at h
    · next hcomp =>
      injection h with h2
      injection h2 with hr h3
      injection h3 with ha hd
      subst hr; subst ha
      exact ⟨hnod, fun sol hs => by
        injection hs with hs2
        rw [← hs2]
        exact ⟨hcomp, hnod⟩⟩
    · split at h
      · exact absurd h (by simp)
      · exact bfVals_solOK csp _ ih _ _ _ _ _ _ _ h hnod

theorem solveForwardCheckingAux_solOK (csp : CSP V α) :
    ∀ fuel, SolOK csp (csp.solveForwardCheckingAux fuel) := by
  intro fuel
  induction fuel with
  | zero => intro a d r a2 d2 h; rw [CSP.solveForwardCheckingAux] at h; exact absurd h (by simp)
  | succ fuel ih =>
    intro a d r a2 d2 h hnod
    rw [CSP.solveForwardCheckingAux] at h
    split at h
    · next hcomp =>
      injection h with h2
      injection h2 with hr h3
      injection h3 with ha hd
      subst hr; subst ha
      exact ⟨hnod, fun sol hs => by
        injection hs with hs2
        rw [← hs2]
        exact ⟨hcomp, hnod⟩⟩
    · split at h
      · exact absurd h (by simp)
      · exact fcVals_solOK csp _ ih _ _ _ _ _ _ _ h hnod

theorem solveAC3Aux_solOK (csp : CSP V α) :
    ∀ fuel, SolOK csp (csp.solveAC3Aux fuel) := by
  intro fuel
  induction fuel with
  | zero => intro a d r a2 d2 h; rw [CSP.solveAC3Aux] at h; exact absurd h (by simp)
  | succ fuel ih =>
    intro a d r a2 d2 h hnod
    rw [CSP.solveAC3Aux] at h
    split at h
    · next hcomp =>
      injection h with h2
      injection h2 with hr h3
      injection h3 with ha hd
      subst hr; subst ha
      exact ⟨hnod, fun sol hs => by
        injection hs with hs2
        rw [← hs2]
        exact ⟨hcomp, hnod⟩⟩
    · split at h
      · exact absurd h (by simp)
      · exact acVals_solOK csp _ ih _ _ _ _ _ _ _ h hnod

theorem filter_key_eq_nil {β : Type} {m : List (V × β)} {v : V} (h : v ∉ keysOf m) :
    m.filter (fun p => p.1 == v) = [] := by
  induction m with
  | nil => rfl
  | cons p rest ih =>
    simp only [keysOf, List.map_cons, List.mem_cons] at h
    push_neg at h
    rw [List.filter_cons, if_neg (by simpa using Ne.symm h.1)]
    exact ih h.2

theorem filter_key_length_one {β : Type} {m : List (V × β)} {v : V}
    (hnod : (keysOf m).Nodup) (hv : v ∈ keysOf m) :
    (m.filter (fun p => p.1 == v)).length = 1 := by
  induction m with
  | nil => simp [keysOf] at hv
  | cons p rest ih =>
    simp only [keysOf, List.map_cons, List.nodup_cons] at hnod
    simp only [keysOf, List.map_cons, List.mem_cons] at hv
    by_cases hp : p.1 = v
    · rw [List.filter_cons, if_pos (by simpa using hp)]
      rw [filter_key_eq_nil (show v ∉ keysOf rest from hp ▸ hnod.1)]
      rfl
    · rw [List.filter_cons, if_neg (by simpa using hp)]
      exact ih hnod.2 (hv.resolve_left (fun he => hp he.symm))

/-- The property C1 asserts of any returned solution: every pair of
mutually-neighboring assigned variables satisfies `isValidPairwise`, and
every variable of the CSP carries exactly one assignment entry. -/
def isSolutionSpec (csp : CSP V α) (sol : Assignment V α) : Prop :=
  (∀ v x w y, lookupEntry sol v = some x → lookupEntry sol w = some y →
      w ∈ csp.neighbors v → v ∈ csp.neighbors w → csp.isValidPairwise v x w y = true) ∧
  (∀ v ∈ csp.vars, (sol.filter (fun p => p.1 == v)).length = 1)

theorem isValid_pairwise {csp : CSP V α} {sol : Assignment V α}
    (hval : csp.isValid sol = true) {v w : V} {x y : α}
    (hv : lookupEntry sol v = some x) (hw : lookupEntry sol w = some y)
    (hnb : w ∈ csp.neighbors v) : csp.isValidPairwise v x w y = true := by
  unfold CSP.isValid at hval
  rw [List.all_eq_true] at hval
  have hmem := lookupEntry_some_mem hv
  have h1 := hval (v, x) hmem
  rw [List.all_eq_true] at h1
  have hwk : w ∈ keysOf sol := lookupEntry_some_key_mem hw
  have h2 := h1 w (by
    rw [List.mem_filter]
    exact ⟨hnb, by simpa using hwk⟩)
  simpa [hw] using h2

theorem isComplete_isSolutionSpec {csp : CSP V α} {sol : Assignment V α}
    (hc : csp.isComplete sol = true) (hnod : (keysOf sol).Nodup) :
    isSolutionSpec csp sol := by
  unfold CSP.isComplete at hc
  rw [Bool.and_eq_true] at hc
  constructor
  · intro v x w y hv hw hnb _
    exact isValid_pairwise hc.1 hv hw hnb
  · intro v hvv
    apply filter_key_length_one hnod
    have hre := hc.2
    unfold CSP.remainingVariables at hre
    rw [List.isEmpty_iff, List.filter_eq_nil_iff] at hre
    have := hre v hvv
    simpa using this

end EngineLemmas



section Sudoku

/-- Python `str.isspace()`: true iff the string is nonempty and consists of
whitespace only. -/
def pyIsSpace (s : String) : Bool := s.length > 0 && s.toList.all (fun c => c.isWhitespace)

/-- `int(char)` for a single character: digit value, or the `ValueError`
Python raises on a non-digit. -/
def pyIntChar (c : Char) : Except String Nat :=
  if c.isDigit then .ok (c.toNat - 48) else .error "invalid literal for int"

/-- The inner `for x, char in enumerate(line)` loop of
`Sudoku.parseAssignment`; a cell variable `getCell(x, y)` is the pair
`(row, column) = (y, x)`. -/
def parseRow (y : Nat) : Nat → List Char → Except String (List ((Nat × Nat) × Nat))
  | _, [] => .ok []
  | x, c :: cs =>
    if c.isWhitespace then parseRow y (x + 1) cs
    else if 9 ≤ x then .error "Too many columns in sudoku"
    else
      match pyIntChar c with
      | .error e => .error e
      | .ok val =>
        if val = 0 then parseRow y (x + 1) cs
        else if 0 < val ∧ val < 10 then
          match parseRow y (x + 1) cs with
          | .error e => .error e
          | .ok entries => .ok (((y, x), val) :: entries)
        else .error "Impossible value in grid"

/-- The outer `for y, line in enumerate(file.readlines())` loop of
`Sudoku.parseAssignment`: whitespace-only lines are skipped but still
consume a row index; a non-blank line with index `≥ 9` triggers the
`"Too many rows in sudoku"` assertion. -/
def parseLines : Nat → List String → Except String (List ((Nat × Nat) × Nat))
  | _, [] => .ok []
  | y, line :: rest =>
    if pyIsSpace line then parseLines (y + 1) rest
    else if 9 ≤ y then .error "Too many rows in sudoku"
    else
      match parseRow y 0 line.toList with
      | .error e => .error e
      | .ok entries =>
        match parseLines (y + 1) rest with
        | .error e => .error e
        | .ok more => .ok (entries ++ more)

/-- `Sudoku.parseAssignment`, with the text file abstracted to its list of
lines; failures (assertions and `int()` errors) are `.error`. -/
def parseAssignment (lines : List String) : Except String (List ((Nat × Nat) × Nat)) :=
  parseLines 0 lines

end Sudoku

section Instances

/-- The spec's unsatisfiable scenario: two mutually neighboring variables,
each with start domain `{1}`, constraint requiring unequal values (and, per
the interface contract, no constraint between non-neighbor pairs). -/
def pairCSP : CSP Nat Nat where
  vars := [0, 1]
  neighbors := fun v => if v = 0 then [1] else if v = 1 then [0] else []
  isValidPairwise := fun u x v y =>
    if (u = 0 ∧ v = 1) ∨ (u = 1 ∧ v = 0) then decide (x ≠ y) else true
  startDomain := fun _ => [1]

/-- The spec's trivial scenario: one variable with domain `{1, 2}` and no
neighbors. -/
def oneVarCSP : CSP Nat Nat where
  vars := [0]
  neighbors := fun _ => []
  isValidPairwise := fun _ _ _ _ => true
  startDomain := fun _ => [1, 2]

/-- Three pairwise-neighboring variables with an inequality constraint,
used to exercise `forwardChecking` on handwritten domain maps. -/
def triCSP : CSP Nat Nat where
  vars := [0, 1, 2]
  neighbors := fun v => [0, 1, 2].filter (fun w => decide (w ≠ v))
  isValidPairwise := fun _ x _ y => decide (x ≠ y)
  startDomain := fun _ => [1]

end Instances

section ArcConsistency

variable {V : Type} {α : Type} [DecidableEq V] [DecidableEq α]

/-- Arc consistency of a domain map, in the sense the spec attributes to a
successful `ac3` run: every value of every unassigned variable has a
supporting value in every other unassigned variable's domain. -/
def arcConsistentOn (csp : CSP V α) (a : Assignment V α) (d : Domains V α) : Prop :=
  ∀ t ∈ csp.remainingVariables a, ∀ hd ∈ csp.remainingVariables a, t ≠ hd →
    ∀ x ∈ lookupD d t, ∃ y ∈ lookupD d hd, csp.isValidPairwise t x hd y = true

instance (csp : CSP V α) (a : Assignment V α) (d : Domains V α) :
    Decidable (arcConsistentOn csp a d) := by
  unfold arcConsistentOn
  infer_instance

end ArcConsistency

section ClaimC1

variable {V : Type} {α : Type} [DecidableEq V] [DecidableEq α]

/-- **C1.** Every assignment returned as a solution by any of the three solve
entry points (`solveBruteForce`, `solveForwardChecking`, `solveAC3`) is valid
and complete: mutually-neighboring assigned variables always satisfy
`isValidPairwise`, and every variable in `variables()` is assigned exactly
once.  (The hypothesis states that the supplied initial assignment is a
dictionary: its keys are duplicate-free.) -/
theorem claim_C1_solutions_valid_complete (csp : CSP V α) (init : Assignment V α)
    (hnod : (keysOf init).Nodup) :
    (∀ sol, csp.solveBruteForce init = .ok (some sol) → isSolutionSpec csp sol) ∧
    (∀ sol, csp.solveForwardChecking init = .ok (some sol) → isSolutionSpec csp sol) ∧
    (∀ sol, csp.solveAC3 init = .ok (some sol) → isSolutionSpec csp sol) := by
  refine ⟨?_, ?_, ?_⟩
  · intro sol h
    rw [CSP.solveBruteForce] at h
    obtain ⟨x, hx, hfst⟩ := exceptMap_ok _ _ _ h
    obtain ⟨r, a2, d2⟩ := x
    have := solveBruteForceAux_solOK csp _ _ _ _ _ _ hx hnod
    exact isComplete_isSolutionSpec (this.2 sol hfst).1 (this.2 sol hfst).2
  · intro sol h
    rw [CSP.solveForwardChecking] at h
    obtain ⟨x, hx, hfst⟩ := exceptMap_ok _ _ _ h
    obtain ⟨r, a2, d2⟩ := x
    have := solveForwardCheckingAux_solOK csp _ _ _ _ _ _ hx hnod
    exact isComplete_isSolutionSpec (this.2 sol hfst).1 (this.2 sol hfst).2
  · intro sol h
    rw [CSP.solveAC3] at h
    split at h
    · next hnone =>
      split at h
      · next hcomp =>
        injection h with h2
        injection h2 with hs
        rw [← hs]
        exact isComplete_isSolutionSpec hcomp hnod
      · exact absurd h (by simp)
    · next d hsome =>
      obtain ⟨x, hx, hfst⟩ := exceptMap_ok _ _ _ h
      obtain ⟨r, a2, d2⟩ := x
      have := solveAC3Aux_solOK csp _ _ _ _ _ _ hx hnod
      exact isComplete_isSolutionSpec (this.2 sol hfst).1 (this.2 sol hfst).2

/-- Witness for C1: `solveBruteForce` on the one-variable CSP with domain
`{1, 2}` returns the solution `{0 ↦ 1}`, which the theorem certifies. -/
theorem claim_C1_witness : isSolutionSpec oneVarCSP [(0, 1)] :=
  (claim_C1_solutions_valid_complete oneVarCSP [] (by simp [keysOf])).1 [(0, 1)] rfl

end ClaimC1

section ClaimC5

variable {V : Type} {α : Type} [DecidableEq V] [DecidableEq α]

theorem keysOf_append {β : Type} (m1 m2 : List (V × β)) :
    keysOf (m1 ++ m2) = keysOf m1 ++ keysOf m2 := by
  simp [keysOf]

theorem keys_perm_insert_back {d2 dref : Domains V α} {var : V}
    (hperm : (keysOf d2).Perm ((keysOf dref).erase var))
    (hnod : (keysOf dref).Nodup) (hv : var ∈ keysOf dref) (prev : List α) :
    (keysOf (insertEntry d2 var prev)).Perm (keysOf dref) := by
  have hnotmem : var ∉ keysOf d2 := by
    intro hmem
    have := hperm.mem_iff.1 hmem
    exact absurd this (hnod.not_mem_erase)
  rw [keysOf_insertEntry_not_mem prev hnotmem]
  refine List.Perm.trans (List.perm_append_singleton var _) ?_
  refine List.Perm.trans (hperm.cons var) ?_
  exact (List.perm_cons_erase hv).symm

/-- Contract of a recursive solver call for the restoration argument: when
the call fails (returns `None`), the threaded assignment dictionary is left
exactly as it was received, and the domain-map keys are left a permutation
of what was received. -/
def RestOK (csp : CSP V α) (f : Assignment V α → Domains V α → CSP.SearchRes V α) : Prop :=
  ∀ a d a2 d2, f a d = .ok (none, a2, d2) →
    (keysOf d).Nodup → (∀ k ∈ keysOf d, k ∉ keysOf a) →
    a2 = a ∧ (keysOf d2).Perm (keysOf d)

theorem bfVals_rest (csp : CSP V α)
    (recur : Assignment V α → Domains V α → CSP.SearchRes V α)
    (hrec : RestOK csp recur) (var : V) :
    ∀ vs a d a2 d2, csp.bfVals recur var vs a d = .ok (none, a2, d2) →
      (keysOf d).Nodup → var ∈ keysOf d → (∀ k ∈ keysOf d, k ∉ keysOf a) →
      a2 = a ∧ (keysOf d2).Perm (keysOf d) := by
  intro vs
  induction vs with
  | nil =>
    intro a d a2 d2 h hnod hv hdisj
    rw [CSP.bfVals] at h
    injection h with h2
    injection h2 with hr h3
    injection h3 with ha hd
    subst ha; subst hd
    exact ⟨rfl, List.Perm.refl _⟩
  | cons val vs ih =>
    intro a d a2 d2 h hnod hv hdisj
    rw [CSP.bfVals] at h
    have hvara : var ∉ keysOf a := hdisj var hv
    have hrest : removeEntry (insertEntry a var val) var = a :=
      removeEntry_insertEntry val hvara
    have hnod1 : (keysOf (removeEntry d var)).Nodup := nodup_keysOf_removeEntry hnod
    have hkeys1 : keysOf (removeEntry d var) = (keysOf d).erase var := keysOf_removeEntry d var
    have hdisj1 : ∀ k ∈ keysOf (removeEntry d var), k ∉ keysOf (insertEntry a var val) := by
      intro k hk hka
      rw [hkeys1] at hk
      have hkd : k ∈ keysOf d := List.mem_of_mem_erase hk
      have hkne : k ≠ var := (List.Nodup.mem_erase_iff hnod).1 hk |>.1
      have := keysOf_insertEntry_subset a var val hka
      rcases List.mem_append.1 this with h1 | h1
      · exact hdisj k hkd h1
      · exact hkne (by simpa using h1)
    split at h
    · split at h
      · exact absurd h (by simp)
      · next res a2x d2x heq =>
        injection h with h2
        injection h2 with hr
        exact absurd hr (by simp)
      · next a2x d2x heq =>
        obtain ⟨hax, hdx⟩ := hrec _ _ _ _ heq (hkeys1 ▸ hnod1) hdisj1
        rw [hax, hrest] at h
        have hdx2 : (keysOf d2x).Perm ((keysOf d).erase var) := hkeys1 ▸ hdx
        have hperm2 := keys_perm_insert_back hdx2 hnod hv (lookupD d var)
        obtain ⟨ha2, hd2⟩ := ih a _ a2 d2 h (hperm2.symm.nodup hnod)
          (hperm2.mem_iff.2 hv) (fun k hk => hdisj k (hperm2.mem_iff.1 hk))
        exact ⟨ha2, hd2.trans hperm2⟩
    · rw [hrest] at h
      have hdx2 : (keysOf (removeEntry d var)).Perm ((keysOf d).erase var) := by
        rw [hkeys1]
      have hperm2 := keys_perm_insert_back hdx2 hnod hv (lookupD d var)
      obtain ⟨ha2, hd2⟩ := ih a _ a2 d2 h (hperm2.symm.nodup hnod)
        (hperm2.mem_iff.2 hv) (fun k hk => hdisj k (hperm2.mem_iff.1 hk))
      exact ⟨ha2, hd2.trans hperm2⟩

theorem fcVals_rest (csp : CSP V α)
    (recur : Assignment V α → Domains V α → CSP.SearchRes V α)
    (hrec : RestOK csp recur) (var : V) :
    ∀ vs a d a2 d2, csp.fcVals recur var vs a d = .ok (none, a2, d2) →
      (keysOf d).Nodup → var ∈ keysOf d → (∀ k ∈ keysOf d, k ∉ keysOf a) →
      a2 = a ∧ (keysOf d2).Perm (keysOf d) := by
  intro vs
  induction vs with
  | nil =>
    intro a d a2 d2 h hnod hv hdisj
    rw [CSP.fcVals] at h
    injection h with h2
    injection h2 with hr h3
    injection h3 with ha hd
    subst ha; subst hd
    exact ⟨rfl, List.Perm.refl _⟩
  | cons val vs ih =>
    intro a d a2 d2 h hnod hv hdisj
    rw [CSP.fcVals] at h
    have hvara : var ∉ keysOf a := hdisj var hv
    have hrest : removeEntry (insertEntry a var val) var = a :=
      removeEntry_insertEntry val hvara
    have hnod1 : (keysOf (removeEntry d var)).Nodup := nodup_keysOf_removeEntry hnod
    have hkeys1 : keysOf (removeEntry d var) = (keysOf d).erase var := keysOf_removeEntry d var
    have hdisj1 : ∀ k ∈ keysOf (removeEntry d var), k ∉ keysOf (insertEntry a var val) := by
      intro k hk hka
      rw [hkeys1] at hk
      have hkd : k ∈ keysOf d := List.mem_of_mem_erase hk
      have hkne : k ≠ var := (List.Nodup.mem_erase_iff hnod).1 hk |>.1
      have := keysOf_insertEntry_subset a var val hka
      rcases List.mem_append.1 this with h1 | h1
      · exact hdisj k hkd h1
      · exact hkne (by simpa using h1)
    have hdx2 : (keysOf (removeEntry d var)).Perm ((keysOf d).erase var) := by
      rw [hkeys1]
    have hperm2 := keys_perm_insert_back hdx2 hnod hv (lookupD d var)
    have hcont : ∀ h2 : csp.fcVals recur var vs a
        (insertEntry (removeEntry d var) var (lookupD d var)) = .ok (none, a2, d2),
        a2 = a ∧ (keysOf d2).Perm (keysOf d) := by
      intro h2
      obtain ⟨ha2, hd2⟩ := ih a _ a2 d2 h2 (hperm2.symm.nodup hnod)
        (hperm2.mem_iff.2 hv) (fun k hk => hdisj k (hperm2.mem_iff.1 hk))
      exact ⟨ha2, hd2.trans hperm2⟩
    split at h
    · split at h
      · exact absurd h (by simp)
      · next res a2x d2x heq =>
        injection h with h2
        injection h2 with hr
        exact absurd hr (by simp)
      · next a2x d2x heq =>
        have hkfc : keysOf (CSP.forwardChecking csp (insertEntry a var val)
            (removeEntry d var) (some var)).1 = keysOf (removeEntry d var) :=
          forwardChecking_keysOf csp _ _ _
        obtain ⟨hax, _⟩ := hrec _ _ _ _ heq (by rw [hkfc]; exact hnod1)
          (by rw [hkfc]; exact hdisj1)
        rw [hax, hrest] at h
        exact hcont h
    · rw [hrest] at h
      exact hcont h

theorem acVals_rest (csp : CSP V α)
    (recur : Assignment V α → Domains V α → CSP.SearchRes V α)
    (hrec : RestOK csp recur) (var : V) :
    ∀ vs a d a2 d2, csp.acVals recur var vs a d = .ok (none, a2, d2) →
      (keysOf d).Nodup → var ∈ keysOf d → (∀ k ∈ keysOf d, k ∉ keysOf a) →
      a2 = a ∧ (keysOf d2).Perm (keysOf d) := by
  intro vs
  induction vs with
  | nil =>
    intro a d a2 d2 h hnod hv hdisj
    rw [CSP.acVals] at h
    injection h with h2
    injection h2 with hr h3
    injection h3 with ha hd
    subst ha; subst hd
    exact ⟨rfl, List.Perm.refl _⟩
  | cons val vs ih =>
    intro a d a2 d2 h hnod hv hdisj
    rw [CSP.acVals] at h
    have hvara : var ∉ keysOf a := hdisj var hv
    have hrest : removeEntry (insertEntry a var val) var = a :=
      removeEntry_insertEntry val hvara
    have hnod1 : (keysOf (removeEntry d var)).Nodup := nodup_keysOf_removeEntry hnod
    have hkeys1 : keysOf (removeEntry d var) = (keysOf d).erase var := keysOf_removeEntry d var
    have hdisj1 : ∀ k ∈ keysOf (removeEntry d var), k ∉ keysOf (insertEntry a var val) := by
      intro k hk hka
      rw [hkeys1] at hk
      have hkd : k ∈ keysOf d := List.mem_of_mem_erase hk
      have hkne : k ≠ var := (List.Nodup.mem_erase_iff hnod).1 hk |>.1
      have := keysOf_insertEntry_subset a var val hka
      rcases List.mem_append.1 this with h1 | h1
      · exact hdisj k hkd h1
      · exact hkne (by simpa using h1)
    have hdx2 : (keysOf (removeEntry d var)).Perm ((keysOf d).erase var) := by
      rw [hkeys1]
    have hperm2 := keys_perm_insert_back hdx2 hnod hv (lookupD d var)
    have hcont : ∀ h2 : csp.acVals recur var vs a
        (insertEntry (removeEntry d var) var (lookupD d var)) = .ok (none, a2, d2),
        a2 = a ∧ (keysOf d2).Perm (keysOf d) := by
      intro h2
      obtain ⟨ha2, hd2⟩ := ih a _ a2 d2 h2 (hperm2.symm.nodup hnod)
        (hperm2.mem_iff.2 hv) (fun k hk => hdisj k (hperm2.mem_iff.1 hk))
      exact ⟨ha2, hd2.trans hperm2⟩
    split at h
    · next nd hnd =>
      split at h
      · exact absurd h (by simp)
      · next res a2x d2x heq =>
        injection h with h2
        injection h2 with hr
        exact absurd hr (by simp)
      · next a2x d2x heq =>
        have hkfc : keysOf (CSP.forwardChecking csp (insertEntry a var val)
            (removeEntry d var) (some var)).1 = keysOf (removeEntry d var) :=
          forwardChecking_keysOf csp _ _ _
        have hknd : keysOf nd = keysOf (removeEntry d var) := by
          rw [← hkfc]
          exact ac3Loop_keysOf csp _ _ _ nd hnd
        obtain ⟨hax, _⟩ := hrec _ _ _ _ heq (by rw [hknd]; exact hnod1)
          (by rw [hknd]; exact hdisj1)
        rw [hax, hrest] at h
        exact hcont h
    · rw [hrest] at h
      exact hcont h

theorem solveBruteForceAux_rest (csp : CSP V α) :
    ∀ fuel, RestOK csp (csp.solveBruteForceAux fuel) := by
  intro fuel
  induction fuel with
  | zero => intro a d a2 d2 h; rw [CSP.solveBruteForceAux] at h; exact absurd h (by simp)
  | succ fuel ih =>
    intro a d a2 d2 h hnod hdisj
    rw [CSP.solveBruteForceAux] at h
    split at h
    · injection h with h2
      injection h2 with hr
      exact absurd hr (by simp)
    · split at h
      · exact absurd h (by simp)
      · next var hsel =>
        have hv : var ∈ keysOf d := selectVariable_mem hsel
        have hkeys : keysOf (removeEntry d var ++ [(var, lookupD d var)]) =
            (keysOf d).erase var ++ [var] := by
          rw [keysOf_append, keysOf_removeEntry]; rfl
        have hperm : (keysOf (removeEntry d var ++ [(var, lookupD d var)])).Perm
            (keysOf d) := by
          rw [hkeys]
          refine List.Perm.trans (List.perm_append_singleton var _) ?_
          exact (List.perm_cons_erase hv).symm
        have hres := bfVals_rest csp _ ih var _ a _ a2 d2 h
          (hperm.symm.nodup hnod) (hperm.mem_iff.2 hv)
          (fun k hk => hdisj k (hperm.mem_iff.1 hk))
        exact ⟨hres.1, hres.2.trans hperm⟩

theorem solveForwardCheckingAux_rest (csp : CSP V α) :
    ∀ fuel, RestOK csp (csp.solveForwardCheckingAux fuel) := by
  intro fuel
  induction fuel with
  | zero => intro a d a2 d2 h; rw [CSP.solveForwardCheckingAux] at h; exact absurd h (by simp)
  | succ fuel ih =>
    intro a d a2 d2 h hnod hdisj
    rw [CSP.solveForwardCheckingAux] at h
    split at h
    · injection h with h2
      injection h2 with hr
      exact absurd hr (by simp)
    · split at h
      · exact absurd h (by simp)
      · next var hsel =>
        have hv : var ∈ keysOf d := selectVariable_mem hsel
        have hkeys : keysOf (removeEntry d var ++ [(var, lookupD d var)]) =
            (keysOf d).erase var ++ [var] := by
          rw [keysOf_append, keysOf_removeEntry]; rfl
        have hperm : (keysOf (removeEntry d var ++ [(var, lookupD d var)])).Perm
            (keysOf d) := by
          rw [hkeys]
          refine List.Perm.trans (List.perm_append_singleton var _) ?_
          exact (List.perm_cons_erase hv).symm
        have hres := fcVals_rest csp _ ih var _ a _ a2 d2 h
          (hperm.symm.nodup hnod) (hperm.mem_iff.2 hv)
          (fun k hk => hdisj k (hperm.mem_iff.1 hk))
        exact ⟨hres.1, hres.2.trans hperm⟩

theorem solveAC3Aux_rest (csp : CSP V α) :
    ∀ fuel, RestOK csp (csp.solveAC3Aux fuel) := by
  intro fuel
  induction fuel with
  | zero => intro a d a2 d2 h; rw [CSP.solveAC3Aux] at h; exact absurd h (by simp)
  | succ fuel ih =>
    intro a d a2 d2 h hnod hdisj
    rw [CSP.solveAC3Aux] at h
    split at h
    · injection h with h2
      injection h2 with hr
      exact absurd hr (by simp)
    · split at h
      · exact absurd h (by simp)
      · next var hsel =>
        have hv : var ∈ keysOf d := selectVariable_mem hsel
        have hkeys : keysOf (removeEntry d var ++ [(var, lookupD d var)]) =
            (keysOf d).erase var ++ [var] := by
          rw [keysOf_append, keysOf_removeEntry]; rfl
        have hperm : (keysOf (removeEntry d var ++ [(var, lookupD d var)])).Perm
            (keysOf d) := by
          rw [hkeys]
          refine List.Perm.trans (List.perm_append_singleton var _) ?_
          exact (List.perm_cons_erase hv).symm
        have hres := acVals_rest csp _ ih var _ a _ a2 d2 h
          (hperm.symm.nodup hnod) (hperm.mem_iff.2 hv)
          (fun k hk => hdisj k (hperm.mem_iff.1 hk))
        exact ⟨hres.1, hres.2.trans hperm⟩

/-- **C5.** After any of the three solve entry points returns, the
externally-supplied initial assignment mapping is unmodified.  The entry
points `deepcopy` the caller's assignment before searching, so the caller's
object is never reachable from the search (value semantics in the
embedding); the substantive content is the restoration discipline proved
here for the three recursive strategies, which thread the mutable working
dictionaries: whenever a search call fails (`None`), the working assignment
dictionary is returned exactly as received — mutation performed on working
copies during the exploration of the value loop never leaks into the
assignment the caller of the recursive step handed over.  (Hypotheses: the
domain-map keys are duplicate-free and disjoint from the assignment keys,
which holds for every call the entry points generate.) -/
theorem claim_C5_initial_assignment_unmodified (csp : CSP V α) (fuel : Nat)
    (a : Assignment V α) (d : Domains V α)
    (hnod : (keysOf d).Nodup) (hdisj : ∀ k ∈ keysOf d, k ∉ keysOf a) :
    (∀ a2 d2, csp.solveBruteForceAux fuel a d = .ok (none, a2, d2) → a2 = a) ∧
    (∀ a2 d2, csp.solveForwardCheckingAux fuel a d = .ok (none, a2, d2) → a2 = a) ∧
    (∀ a2 d2, csp.solveAC3Aux fuel a d = .ok (none, a2, d2) → a2 = a) :=
  ⟨fun a2 d2 h => (solveBruteForceAux_rest csp fuel a d a2 d2 h hnod hdisj).1,
   fun a2 d2 h => (solveForwardCheckingAux_rest csp fuel a d a2 d2 h hnod hdisj).1,
   fun a2 d2 h => (solveAC3Aux_rest csp fuel a d a2 d2 h hnod hdisj).1⟩

/-- Witness for C5: on the unsatisfiable two-variable CSP the brute-force
search fails, and the theorem yields that the working assignment dictionary
is restored to the (empty) assignment it started from. -/
theorem claim_C5_witness : ([] : Assignment Nat Nat) = [] :=
  (claim_C5_initial_assignment_unmodified pairCSP 3 [] [(0, [1]), (1, [1])]
    (by decide) (by decide)).1 [] [(1, [1]), (0, [1])] rfl

end ClaimC5

section ClaimC2

/-- **C2** (failing scenario).  On the spec's unsatisfiable scenario — two
mutually neighboring variables with domain `{1}` and an unequal-values
constraint, empty initial assignment — `solveBruteForce` and
`solveForwardChecking` return the "no solution" result, but `solveAC3` does
not: `ac3` signals failure with `None`, `solveAC3` passes that `None`
straight into `_solveAC3` (CSP.py line 264 has no `None` check), and
`selectVariable` crashes with an `AttributeError` on `None.items()`
(modelled `.error ()`).  The three entry points therefore do not all report
"no solution" on this instance, contradicting the claim; the spec and the
functions' own docstrings make the intended behavior clear. -/
theorem claim_C2_strategy_divergence :
    CSP.solveBruteForce pairCSP [] = .ok none ∧
    CSP.solveForwardChecking pairCSP [] = .ok none ∧
    CSP.solveAC3 pairCSP [] = .error () := by
  refine ⟨rfl, rfl, ?_⟩
  have h : CSP.ac3 pairCSP [] (domainsFromAssignment pairCSP []) none = none := by
    rw [show domainsFromAssignment pairCSP [] = [(0, [1]), (1, [1])] from rfl]
    rw [CSP.ac3]
    rw [show initialQueue (pairCSP.remainingVariables []) = [(0, 1), (1, 0)] from rfl]
    rw [CSP.ac3Loop]
    simp [CSP.removeInconsistentValues, lookupD, lookupEntry, List.find?, setEqB,
      insertEntry, pairCSP]
  simp only [CSP.solveAC3, h]
  rfl

end ClaimC2

section ClaimC4

variable {V : Type} {α : Type} [DecidableEq V] [DecidableEq α]

theorem lookupD_cons (u : V) (dom : List α) (rest : Domains V α) (k : V) :
    lookupD ((u, dom) :: rest) k = if u = k then dom else lookupD rest k := by
  rw [lookupD, lookupEntry_cons]
  by_cases hp : u = k
  · simp [hp]
  · simp [hp, lookupD]

theorem fcOne_early_mem (csp : CSP V α) (v : V) (x : α) (d : Domains V α)
    (h : (csp.fcOne v x d).2.2 = true) : ∃ u, (u, ([] : List α)) ∈ (csp.fcOne v x d).1 := by
  induction d with
  | nil => simp [CSP.fcOne] at h
  | cons p rest ih =>
    cases p with
    | mk u dom =>
      by_cases he : dom.isEmpty
      · refine ⟨u, ?_⟩
        have hd : dom = [] := by simpa [List.isEmpty_iff] using he
        simp [CSP.fcOne, he, hd]
      · rw [CSP.fcOne] at h ⊢
        rw [if_neg he] at h ⊢
        simp only at h
        obtain ⟨u2, hu2⟩ := ih h
        exact ⟨u2, List.mem_cons_of_mem _ hu2⟩

theorem fcOne_sumCard_le (csp : CSP V α) (v : V) (x : α) (d : Domains V α) :
    sumCard (csp.fcOne v x d).1 ≤ sumCard d := by
  induction d with
  | nil => simp [CSP.fcOne]
  | cons p rest ih =>
    cases p with
    | mk u dom =>
      rw [CSP.fcOne]
      have h1 := List.length_filter_le (fun y => csp.isValidPairwise v x u y) dom
      by_cases he : dom.isEmpty
      · rw [if_pos he]
        simp only [sumCard, List.map_cons, List.sum_cons] at *
        omega
      · rw [if_neg he]
        simp only [sumCard, List.map_cons, List.sum_cons] at *
        omega

theorem fcOne_no_early_spec (csp : CSP V α) (v : V) (x : α) (d : Domains V α)
    (h : (csp.fcOne v x d).2.2 = false) :
    (∀ u, lookupD (csp.fcOne v x d).1 u =
      (lookupD d u).filter (fun y => csp.isValidPairwise v x u y)) ∧
    (csp.fcOne v x d).2.1 = sumCard d - sumCard (csp.fcOne v x d).1 := by
  induction d with
  | nil => exact ⟨fun u => by simp [CSP.fcOne, lookupD, lookupEntry, List.find?], by
      simp [CSP.fcOne, sumCard]⟩
  | cons p rest ih =>
    cases p with
    | mk u dom =>
      rw [CSP.fcOne] at h ⊢
      by_cases he : dom.isEmpty
      · rw [if_pos he] at h; simp at h
      · rw [if_neg he] at h ⊢
        simp only at h
        obtain ⟨ihl, ihc⟩ := ih h
        constructor
        · intro k
          rw [lookupD_cons, lookupD_cons]
          by_cases hk : u = k
          · subst hk
            rw [if_pos rfl, if_pos rfl]
          · rw [if_neg hk, if_neg hk]
            exact ihl k
        · have h1 := List.length_filter_le (fun y => csp.isValidPairwise v x u y) dom
          have h2 := fcOne_sumCard_le csp v x rest
          simp only [sumCard, List.map_cons, List.sum_cons] at *
          omega

theorem fcAll_sumCard_le (csp : CSP V α) (l : List (V × α)) (d : Domains V α) :
    sumCard (csp.fcAll l d).1 ≤ sumCard d := by
  induction l generalizing d with
  | nil => simp [CSP.fcAll]
  | cons q rest ih =>
    cases q with
    | mk v x =>
      rw [CSP.fcAll]
      by_cases he : (csp.fcOne v x d).2.2
      · rw [if_pos he]
        exact fcOne_sumCard_le csp v x d
      · rw [if_neg he]
        simp only
        exact le_trans (ih (csp.fcOne v x d).1) (fcOne_sumCard_le csp v x d)

theorem fcAll_spec (csp : CSP V α) (l : List (V × α)) (d : Domains V α)
    (hne : ∀ p ∈ (csp.fcAll l d).1, p.2 ≠ ([] : List α)) :
    (∀ u, lookupD (csp.fcAll l d).1 u =
      (lookupD d u).filter (fun y => l.all (fun q => csp.isValidPairwise q.1 q.2 u y))) ∧
    (csp.fcAll l d).2 = sumCard d - sumCard (csp.fcAll l d).1 := by
  induction l generalizing d with
  | nil =>
    refine ⟨fun u => ?_, by simp [CSP.fcAll]⟩
    simp [CSP.fcAll, List.filter_eq_self]
  | cons q rest ih =>
    cases q with
    | mk v x =>
      rw [CSP.fcAll] at hne ⊢
      by_cases he : (csp.fcOne v x d).2.2
      · rw [if_pos he] at hne
        obtain ⟨u2, hu2⟩ := fcOne_early_mem csp v x d he
        exact absurd rfl (hne (u2, []) hu2)
      · rw [if_neg he] at hne ⊢
        simp only
        obtain ⟨ihl, ihc⟩ := ih (csp.fcOne v x d).1 hne
        have hob := fcOne_no_early_spec csp v x d (by simpa using he)
        constructor
        · intro u
          rw [ihl u, hob.1 u, List.filter_filter]
          refine List.filter_congr ?_
          intro y hy
          simp [List.all_cons, Bool.and_comm]
        · have h1 := fcOne_sumCard_le csp v x d
          have h2 := fcAll_sumCard_le csp rest (csp.fcOne v x d).1
          have h3 := hob.2
          simp only [sumCard] at *
          omega

end ClaimC4

section ClaimC4Main

variable {V : Type} {α : Type} [DecidableEq V] [DecidableEq α]

/-- Counterexample to **C4** as stated.  Assignment `{0 ↦ 1}`, domain map
`{1 ↦ ∅, 2 ↦ {1}}`, changed variable `0`, on a CSP whose constraint forbids
equal values on distinct variables.  `isValidPairwise(0, 1, 2, 1)` is false,
so the claim requires value `1` to be removed from variable `2`'s domain —
but `forwardChecking` hits the early `return` at variable `1`, whose
*original* domain object is empty (`if len(domain) == 0`, CSP.py:208), and
returns with variable `2`'s domain untouched and a prune count of `0`. -/
theorem claim_C4_counterexample :
    triCSP.isValidPairwise 0 1 2 1 = false ∧
    CSP.forwardChecking triCSP [(0, 1)] [(1, []), (2, [1])] (some 0) =
      ([(1, []), (2, [1])], 0) ∧
    1 ∈ lookupD (CSP.forwardChecking triCSP [(0, 1)] [(1, []), (2, [1])] (some 0)).1 2 := by
  refine ⟨rfl, rfl, ?_⟩
  decide

/-- **C4 (amended).**  `forwardChecking` returns a fresh domain map and a
prune count, never mutating the caller's map or its sets (the source copies
the dictionary and replaces sets via `difference`; the embedding's value
semantics reflect this).  *Provided no unassigned variable's domain is or
becomes empty during the pass* — equivalently, the returned map maps no
variable to the empty set — the returned map is, for each unassigned
variable, exactly the input domain with precisely those values `v` removed
for which `isValidPairwise(assignedVar, assignedValue, unassignedVar, v)` is
false (re-deriving the assigned variables from the whole assignment when the
changed-variable argument is omitted), and the count is the total number of
values removed.  When a domain is or becomes empty the pass returns early at
that entry and later entries may be left unpruned (the counterexample). -/
theorem claim_C4_forwardChecking_exact (csp : CSP V α) (a : Assignment V α)
    (d : Domains V α) (ov : Option V)
    (hne : ∀ p ∈ (CSP.forwardChecking csp a d ov).1, p.2 ≠ ([] : List α)) :
    (∀ u, lookupD (CSP.forwardChecking csp a d ov).1 u =
      (lookupD d u).filter (fun y => (CSP.fcAdjusted a ov).all
        (fun q => csp.isValidPairwise q.1 q.2 u y))) ∧
    (CSP.forwardChecking csp a d ov).2 =
      sumCard d - sumCard (CSP.forwardChecking csp a d ov).1 :=
  fcAll_spec csp (CSP.fcAdjusted a ov) d hne

/-- Witness for the amended C4: a pass with no emptied domain prunes exactly
the incompatible values. -/
theorem claim_C4_witness :
    lookupD (CSP.forwardChecking triCSP [(0, 1)] [(1, [1, 2]), (2, [2, 3])] (some 0)).1 1 =
      (lookupD [(1, [1, 2]), (2, [2, 3])] 1).filter (fun y =>
        (CSP.fcAdjusted [(0, 1)] (some 0)).all
          (fun q => triCSP.isValidPairwise q.1 q.2 1 y)) :=
  (claim_C4_forwardChecking_exact triCSP [(0, 1)] [(1, [1, 2]), (2, [2, 3])] (some 0)
    (by decide)).1 1

end ClaimC4Main

section ClaimC6

variable {V : Type} {α : Type} [DecidableEq V] [DecidableEq α]

theorem fcOne_lookup_subset (csp : CSP V α) (v : V) (x : α) (d : Domains V α) :
    ∀ u, lookupD (csp.fcOne v x d).1 u ⊆ lookupD d u := by
  induction d with
  | nil => intro u; exact List.Subset.refl _
  | cons p rest ih =>
    intro u
    cases p with
    | mk u0 dom =>
      rw [CSP.fcOne]
      by_cases he : dom.isEmpty
      · rw [if_pos he]
        rw [lookupD_cons, lookupD_cons]
        by_cases hk : u0 = u
        · rw [if_pos hk, if_pos hk]
          exact fun y hy => List.mem_of_mem_filter hy
        · rw [if_neg hk, if_neg hk]
          exact List.Subset.refl _
      · rw [if_neg he]
        simp only
        rw [lookupD_cons, lookupD_cons]
        by_cases hk : u0 = u
        · rw [if_pos hk, if_pos hk]
          exact fun y hy => List.mem_of_mem_filter hy
        · rw [if_neg hk, if_neg hk]
          exact ih u

theorem fcAll_lookup_subset (csp : CSP V α) (l : List (V × α)) (d : Domains V α) :
    ∀ u, lookupD (csp.fcAll l d).1 u ⊆ lookupD d u := by
  induction l generalizing d with
  | nil => intro u; exact List.Subset.refl _
  | cons q rest ih =>
    intro u
    cases q with
    | mk v x =>
      rw [CSP.fcAll]
      by_cases he : (csp.fcOne v x d).2.2
      · rw [if_pos he]
        exact fcOne_lookup_subset csp v x d u
      · rw [if_neg he]
        simp only
        exact fun y hy => fcOne_lookup_subset csp v x d u (ih (csp.fcOne v x d).1 u hy)

theorem lookupD_subset_of_entries {d : Domains V α} {f : V → List α}
    (h : ∀ p ∈ d, p.2 ⊆ f p.1) : ∀ v, lookupD d v ⊆ f v := by
  intro v
  cases hl : lookupEntry d v with
  | none => simp [lookupD, hl]
  | some x =>
    have := lookupEntry_some_mem hl
    simpa [lookupD, hl] using h (v, x) this

/-- **C6.** Pruning monotonicity: starting from a domain map bounded by the
unconstrained start domains (as every domain map arising during search is,
since the entry points start from `domainsFromAssignment` and both passes
only remove values), the `forwardChecking` result is pointwise contained in
its input and in the start domains, and a successful `ac3` run on the
forward-checked map is pointwise contained in the forward-checked map and in
the start domains: neither consistency pass ever adds a value. -/
theorem claim_C6_pruning_monotonic (csp : CSP V α) (a : Assignment V α)
    (d : Domains V α) (ov ov2 : Option V)
    (hstart : ∀ p ∈ d, p.2 ⊆ csp.startDomain p.1) :
    (∀ v, lookupD (CSP.forwardChecking csp a d ov).1 v ⊆ lookupD d v) ∧
    (∀ v, lookupD (CSP.forwardChecking csp a d ov).1 v ⊆ csp.startDomain v) ∧
    (∀ d2, CSP.ac3 csp a (CSP.forwardChecking csp a d ov).1 ov2 = some d2 →
      (∀ v, lookupD d2 v ⊆ lookupD (CSP.forwardChecking csp a d ov).1 v) ∧
      (∀ v, lookupD d2 v ⊆ csp.startDomain v)) := by
  have hfc : ∀ v, lookupD (CSP.forwardChecking csp a d ov).1 v ⊆ lookupD d v :=
    fcAll_lookup_subset csp _ d
  have hst : ∀ v, lookupD d v ⊆ csp.startDomain v := lookupD_subset_of_entries hstart
  refine ⟨hfc, fun v => (hfc v).trans (hst v), ?_⟩
  intro d2 h2
  have hac : ∀ v, lookupD d2 v ⊆ lookupD (CSP.forwardChecking csp a d ov).1 v :=
    ac3Loop_lookup_subset csp a _ _ d2 h2
  exact ⟨hac, fun v => ((hac v).trans (hfc v)).trans (hst v)⟩

/-- Witness for C6 on the two-variable instance: the forward-checked domain
of variable `0` stays inside its input domain. -/
theorem claim_C6_witness :
    lookupD (CSP.forwardChecking pairCSP [] [(0, [1]), (1, [1])] none).1 0 ⊆
      lookupD [(0, [1]), (1, [1])] 0 :=
  (claim_C6_pruning_monotonic pairCSP [] [(0, [1]), (1, [1])] none none (by decide)).1 0

end ClaimC6

section ClaimC7

variable {V : Type} {α : Type} [DecidableEq V] [DecidableEq α]

theorem rIV_consistent_no_change (csp : CSP V α) (d : Domains V α) (t hd : V)
    (hcons : ∀ x ∈ lookupD d t, ∃ y ∈ lookupD d hd, csp.isValidPairwise t x hd y = true) :
    csp.removeInconsistentValues d t hd = (false, d) := by
  unfold CSP.removeInconsistentValues
  have hfil : (lookupD d t).filter
      (fun x => (lookupD d hd).any (fun y => csp.isValidPairwise t x hd y)) = lookupD d t := by
    rw [List.filter_eq_self]
    intro x hx
    obtain ⟨y, hy, hv⟩ := hcons x hx
    exact List.any_eq_true.2 ⟨y, hy, hv⟩
  simp [hfil, setEqB_refl]

theorem ac3Loop_consistent_drain (csp : CSP V α) (a : Assignment V α) (d : Domains V α) :
    ∀ q : List (V × V),
      (∀ th ∈ q,
        (∀ x ∈ lookupD d th.1, ∃ y ∈ lookupD d th.2, csp.isValidPairwise th.1 x th.2 y = true) ∧
        lookupD d th.1 ≠ []) →
      csp.ac3Loop a d q = some d := by
  intro q
  induction q with
  | nil => intro _; exact ac3Loop_nil csp a d
  | cons th rest ih =>
    intro hq
    cases th with
    | mk t hd =>
      have hhead := hq (t, hd) (List.mem_cons_self _ _)
      have hr := rIV_consistent_no_change csp d t hd hhead.1
      rw [ac3Loop_cons, hr]
      simp only
      rw [if_neg (by simpa [List.isEmpty_iff] using hhead.2)]
      rw [if_neg (by simp)]
      exact ih (fun th2 h2 => hq th2 (List.mem_cons_of_mem _ h2))

theorem initialQueue_mem {u : List V} {t hd : V} (h : (t, hd) ∈ initialQueue u) :
    t ∈ u ∧ hd ∈ u ∧ hd ≠ t := by
  unfold initialQueue at h
  rw [List.mem_flatMap] at h
  obtain ⟨v1, hv1, hmem⟩ := h
  rw [List.mem_map] at hmem
  obtain ⟨v2, hv2, heq⟩ := hmem
  rw [List.mem_filter] at hv2
  injection heq with h1 h2
  subst h1; subst h2
  exact ⟨hv1, hv2.1, by simpa using hv2.2⟩

/-- Counterexample to **C7** as stated.  On the two-variable CSP with the
empty assignment, the domain map sending both variables to the empty set is
arc-consistent (vacuously: there is no value lacking support), yet `ac3`
does not return it: processing the first arc leaves the tail's domain empty,
so the `len(domains[tail_var]) == 0` check fires and `ac3` returns `None`
instead of the input map. -/
theorem claim_C7_counterexample :
    arcConsistentOn pairCSP [] [(0, []), (1, [])] ∧
    CSP.ac3 pairCSP [] [(0, []), (1, [])] none = none := by
  constructor
  · intro t ht hd hhd hne x hx
    simp [lookupD, lookupEntry, List.find?, pairCSP, CSP.remainingVariables] at ht hhd
    rcases ht with h0 | h1
    · subst h0; simp [lookupD, lookupEntry, List.find?] at hx
    · subst h1; simp [lookupD, lookupEntry, List.find?] at hx
  · rw [CSP.ac3]
    rw [show initialQueue (pairCSP.remainingVariables []) = [(0, 1), (1, 0)] from rfl]
    have hcond : (lookupD
        (pairCSP.removeInconsistentValues [(0, []), (1, [])] 0 1).2 0).isEmpty = true := by
      rw [rIV_consistent_no_change pairCSP _ 0 1 (by decide)]
      rfl
    rw [ac3Loop_cons, if_pos hcond]

/-- **C7 (amended).**  Running `ac3` on a domain map that is already
arc-consistent *and in which every unassigned variable's domain is nonempty*
prunes zero values: the returned domain map is the input map itself.
(Without the nonemptiness proviso the claim fails: an all-empty domain map
is vacuously arc-consistent, yet `ac3` returns the failure signal `None` —
see the counterexample.) -/
theorem claim_C7_ac3_idempotent (csp : CSP V α) (a : Assignment V α) (d : Domains V α)
    (ov : Option V) (hcons : arcConsistentOn csp a d)
    (hne : ∀ t ∈ csp.remainingVariables a, lookupD d t ≠ []) :
    CSP.ac3 csp a d ov = some d := by
  rw [CSP.ac3]
  apply ac3Loop_consistent_drain
  intro th hth
  obtain ⟨ht, hhd, hne2⟩ := initialQueue_mem hth
  exact ⟨hcons th.1 ht th.2 hhd (Ne.symm hne2), hne th.1 ht⟩

/-- Witness for the amended C7: an arc-consistent nonempty two-variable
domain map is returned unchanged. -/
theorem claim_C7_witness :
    CSP.ac3 pairCSP [] [(0, [1]), (1, [2])] none = some [(0, [1]), (1, [2])] :=
  claim_C7_ac3_idempotent pairCSP [] [(0, [1]), (1, [2])] none (by decide) (by decide)

end ClaimC7

section ClaimC8

variable {V : Type} {α : Type} [DecidableEq V] [DecidableEq α]

/-- The number of values a tentative assignment `var ↦ val` prunes from the
other unassigned variables' domains during the LCV evaluation. -/
def lcvCount (csp : CSP V α) (a : Assignment V α) (d : Domains V α) (var : V) (val : α) : Nat :=
  (CSP.forwardChecking csp (insertEntry a var val) (removeEntry d var) (some var)).2

/-- Whether the tentative assignment `var ↦ val` leaves some other
variable's domain empty during the LCV evaluation (such candidates are
excluded from the ordering). -/
def lcvDoomed (csp : CSP V α) (a : Assignment V α) (d : Domains V α) (var : V) (val : α) : Bool :=
  (CSP.forwardChecking csp (insertEntry a var val) (removeEntry d var) (some var)).1.any
    (fun p => p.2.isEmpty)

theorem insertByCount_perm (x : α × Nat) (l : List (α × Nat)) :
    (insertByCount x l).Perm (x :: l) := by
  induction l with
  | nil => exact List.Perm.refl _
  | cons y ys ih =>
    rw [insertByCount]
    by_cases hlt : y.2 < x.2
    · rw [if_pos hlt]
      exact List.Perm.trans (ih.cons y) (List.Perm.swap x y ys)
    · rw [if_neg hlt]

theorem sortByCount_perm (l : List (α × Nat)) : (sortByCount l).Perm l := by
  induction l with
  | nil => exact List.Perm.refl _
  | cons x xs ih =>
    rw [sortByCount]
    exact List.Perm.trans (insertByCount_perm x (sortByCount xs)) (ih.cons x)

theorem insertByCount_pairwise (x : α × Nat) (l : List (α × Nat))
    (h : l.Pairwise (fun p q => p.2 ≤ q.2)) :
    (insertByCount x l).Pairwise (fun p q => p.2 ≤ q.2) := by
  induction l with
  | nil => simp [insertByCount]
  | cons y ys ih =>
    rw [List.pairwise_cons] at h
    rw [insertByCount]
    by_cases hlt : y.2 < x.2
    · rw [if_pos hlt]
      rw [List.pairwise_cons]
      constructor
      · intro z hz
        have hz2 := (insertByCount_perm x ys).mem_iff.1 hz
        rcases List.mem_cons.1 hz2 with he | he
        · rw [he]; exact Nat.le_of_lt hlt
        · exact h.1 z he
      · exact ih h.2
    · rw [if_neg hlt]
      rw [List.pairwise_cons]
      refine ⟨?_, ?_⟩
      · intro z hz
        rcases List.mem_cons.1 hz with he | he
        · rw [he]; omega
        · exact le_trans (show x.2 ≤ y.2 by omega) (h.1 z he)
      · rw [List.pairwise_cons]
        exact ⟨h.1, h.2⟩

theorem sortByCount_pairwise (l : List (α × Nat)) :
    (sortByCount l).Pairwise (fun p q => p.2 ≤ q.2) := by
  induction l with
  | nil => simp [sortByCount]
  | cons x xs ih => exact insertByCount_pairwise x _ ih

theorem lcvData_mem (csp : CSP V α) (a : Assignment V α) (var : V) (rest : Domains V α)
    (vs : List α) (p : α × Nat) :
    p ∈ CSP.lcvData csp a var rest vs ↔
      (p.1 ∈ vs ∧
       (CSP.forwardChecking csp (insertEntry a var p.1) rest (some var)).1.any
         (fun q => q.2.isEmpty) = false ∧
       p.2 = (CSP.forwardChecking csp (insertEntry a var p.1) rest (some var)).2) := by
  induction vs with
  | nil => simp [CSP.lcvData]
  | cons val vs ih =>
    rw [CSP.lcvData]
    by_cases hd : (CSP.forwardChecking csp (insertEntry a var val) rest (some var)).1.any
        (fun q => q.2.isEmpty)
    · rw [if_pos hd, ih]
      constructor
      · rintro ⟨h1, h2, h3⟩
        exact ⟨List.mem_cons_of_mem _ h1, h2, h3⟩
      · rintro ⟨h1, h2, h3⟩
        rcases List.mem_cons.1 h1 with he | he
        · rw [he] at h2
          rw [hd] at h2
          exact absurd h2 (by simp)
        · exact ⟨he, h2, h3⟩
    · rw [if_neg hd]
      rw [List.mem_cons, ih]
      constructor
      · rintro (he | ⟨h1, h2, h3⟩)
        · subst he
          exact ⟨List.mem_cons_self _ _, Eq.mp (Bool.not_eq_true _) hd, rfl⟩
        · exact ⟨List.mem_cons_of_mem _ h1, h2, h3⟩
      · rintro ⟨h1, h2, h3⟩
        rcases List.mem_cons.1 h1 with he | he
        · left
          cases p with
          | mk pv pn =>
            simp only at he h3 ⊢
            rw [he] at h3 ⊢
            rw [h3]
        · right
          exact ⟨he, h2, h3⟩

/-- **C8.**  With LCV enabled, `orderDomain` returns the candidate values of
the chosen variable sorted by ascending number of values that the tentative
assignment prunes from the other unassigned variables' domains, and a value
appears in the ordering exactly when it belongs to the variable's current
domain and its tentative forward checking leaves no other variable's domain
empty. -/
theorem claim_C8_orderDomain_LCV (csp : CSP V α) (a : Assignment V α) (d : Domains V α)
    (var : V) :
    (∀ val, val ∈ (csp.orderDomain a d var).1 ↔
      (val ∈ lookupD d var ∧ lcvDoomed csp a d var val = false)) ∧
    (csp.orderDomain a d var).1.Pairwise
      (fun v w => lcvCount csp a d var v ≤ lcvCount csp a d var w) := by
  constructor
  · intro val
    rw [CSP.orderDomain]
    simp only [List.mem_map]
    constructor
    · rintro ⟨p, hp, hfst⟩
      have hp2 := (sortByCount_perm _).mem_iff.1 hp
      rw [lcvData_mem] at hp2
      rw [← hfst]
      exact ⟨hp2.1, by simpa [lcvDoomed] using hp2.2.1⟩
    · rintro ⟨hmem, hdoom⟩
      have hin : (val, (CSP.forwardChecking csp (insertEntry a var val)
          (removeEntry d var) (some var)).2) ∈
          sortByCount (CSP.lcvData csp a var (removeEntry d var) (lookupD d var)) := by
        apply (sortByCount_perm _).mem_iff.2
        rw [lcvData_mem]
        exact ⟨hmem, by simpa [lcvDoomed] using hdoom, rfl⟩
      exact ⟨_, hin, rfl⟩
  · rw [CSP.orderDomain]
    simp only
    rw [List.pairwise_map]
    have hpw := sortByCount_pairwise (CSP.lcvData csp a var (removeEntry d var)
      (lookupD d var))
    refine List.Pairwise.imp_of_mem ?_ hpw
    intro p q hp hq hle
    have hp2 := (sortByCount_perm _).mem_iff.1 hp
    have hq2 := (sortByCount_perm _).mem_iff.1 hq
    rw [lcvData_mem] at hp2 hq2
    unfold lcvCount
    rw [← hp2.2.2, ← hq2.2.2]
    exact hle

end ClaimC8

section ClaimC10

variable {V : Type} {α : Type} [DecidableEq V] [DecidableEq α]

theorem lookupEntry_append_left {β : Type} {m1 : List (V × β)} (m2 : List (V × β)) {k : V}
    {x : β} (h : lookupEntry m1 k = some x) : lookupEntry (m1 ++ m2) k = some x := by
  induction m1 with
  | nil => simp [lookupEntry, List.find?] at h
  | cons p rest ih =>
    rw [lookupEntry_cons] at h
    rw [List.cons_append, lookupEntry_cons]
    by_cases hp : p.1 = k
    · rwa [if_pos hp] at h ⊢
    · rw [if_neg hp] at h ⊢
      exact ih h

theorem lookupEntry_append_right {β : Type} {m1 : List (V × β)} (m2 : List (V × β)) {k : V}
    (h : lookupEntry m1 k = none) : lookupEntry (m1 ++ m2) k = lookupEntry m2 k := by
  induction m1 with
  | nil => rfl
  | cons p rest ih =>
    rw [lookupEntry_cons] at h
    rw [List.cons_append, lookupEntry_cons]
    by_cases hp : p.1 = k
    · rw [if_pos hp] at h; simp at h
    · rw [if_neg hp] at h ⊢
      exact ih h

/-- **C10.**  `orderDomain` hands the caller's domain map back equal as a
key-to-set mapping: the entry of the ordered variable, removed internally by
`domains.pop(var)` during the LCV evaluation, is re-inserted with the same
set (`domains[var] = domain_to_order`, which re-appends it at the end of the
dictionary), and no other variable's domain is modified.  (Hypotheses: `var`
has an entry and the map's keys are duplicate-free, as for a Python dict.) -/
theorem claim_C10_orderDomain_frame (csp : CSP V α) (a : Assignment V α)
    (d : Domains V α) (var : V) (hvar : var ∈ keysOf d) (hnod : (keysOf d).Nodup) :
    ∀ w, lookupD (csp.orderDomain a d var).2 w = lookupD d w := by
  intro w
  rw [CSP.orderDomain]
  simp only
  by_cases hw : w = var
  · subst hw
    have hnone : lookupEntry (removeEntry d w) w = none := by
      apply lookupEntry_eq_none
      rw [keysOf_removeEntry]
      exact hnod.not_mem_erase
    rw [lookupD, lookupEntry_append_right _ hnone]
    simp [lookupEntry, List.find?, lookupD]
  · simp only [lookupD]
    have hrem : lookupEntry (removeEntry d var) w = lookupEntry d w :=
      lookupEntry_removeEntry_ne hw
    cases hl : lookupEntry (removeEntry d var) w with
    | none =>
      rw [lookupEntry_append_right _ hl]
      rw [hl] at hrem
      rw [← hrem]
      rw [lookupEntry_cons]
      simp [Ne.symm hw, lookupEntry, List.find?]
    | some x =>
      rw [lookupEntry_append_left _ hl]
      rw [hl] at hrem
      rw [← hrem]

/-- Witness for C10: after ordering variable `0`'s domain, variable `1`'s
domain reads back unchanged. -/
theorem claim_C10_witness :
    lookupD (CSP.orderDomain pairCSP [] [(0, [1]), (1, [1])] 0).2 1 =
      lookupD [(0, [1]), (1, [1])] 1 :=
  claim_C10_orderDomain_frame pairCSP [] [(0, [1]), (1, [1])] 0 (by decide) (by decide) 1

end ClaimC10

section ClaimC9

theorem parseRow_cols (y : Nat) :
    ∀ (cs : List Char) (x0 : Nat) (entries : List ((Nat × Nat) × Nat)),
      parseRow y x0 cs = .ok entries →
      ∀ i c, cs[i]? = some c → c.isWhitespace = false → (x0 + i < 9 ∧ c.isDigit = true) := by
  intro cs
  induction cs with
  | nil => intro x0 entries h i c hc; simp at hc
  | cons c0 cs ih =>
    intro x0 entries h i c hc hws
    rw [parseRow] at h
    by_cases hws0 : c0.isWhitespace
    · rw [if_pos hws0] at h
      cases i with
      | zero =>
        simp only [List.getElem?_cons_zero, Option.some.injEq] at hc
        rw [← hc] at hws
        rw [hws0] at hws
        exact absurd hws (by simp)
      | succ j =>
        simp only [List.getElem?_cons_succ] at hc
        have := ih (x0 + 1) entries h j c hc hws
        exact ⟨by omega, this.2⟩
    · rw [if_neg hws0] at h
      by_cases hx : 9 ≤ x0
      · rw [if_pos hx] at h; exact absurd h (by simp)
      · rw [if_neg hx] at h
        by_cases hd : c0.isDigit
        · rw [show pyIntChar c0 = .ok (c0.toNat - 48) from by simp [pyIntChar, hd]] at h
          simp only at h
          cases i with
          | zero =>
            simp only [List.getElem?_cons_zero, Option.some.injEq] at hc
            rw [← hc]
            exact ⟨by omega, hd⟩
          | succ j =>
            simp only [List.getElem?_cons_succ] at hc
            by_cases h0 : c0.toNat - 48 = 0
            · rw [if_pos h0] at h
              have := ih (x0 + 1) entries h j c hc hws
              exact ⟨by omega, this.2⟩
            · rw [if_neg h0] at h
              by_cases hr : 0 < c0.toNat - 48 ∧ c0.toNat - 48 < 10
              · rw [if_pos hr] at h
                cases hrec : parseRow y (x0 + 1) cs with
                | error e => rw [hrec] at h; exact absurd h (by simp)
                | ok entries2 =>
                  rw [hrec] at h
                  have := ih (x0 + 1) entries2 hrec j c hc hws
                  exact ⟨by omega, this.2⟩
              · rw [if_neg hr] at h; exact absurd h (by simp)
        · rw [show pyIntChar c0 = .error "invalid literal for int" from by
            simp [pyIntChar, hd]] at h
          exact absurd h (by simp)

theorem parseRow_mem (y : Nat) :
    ∀ (cs : List Char) (x0 : Nat) (entries : List ((Nat × Nat) × Nat)),
      parseRow y x0 cs = .ok entries →
      ∀ yy xx v, ((yy, xx), v) ∈ entries ↔
        (yy = y ∧ x0 ≤ xx ∧ ∃ c, cs[xx - x0]? = some c ∧ c.isWhitespace = false ∧
          c.isDigit = true ∧ v = c.toNat - 48 ∧ 1 ≤ v) := by
  intro cs
  induction cs with
  | nil =>
    intro x0 entries h yy xx v
    rw [parseRow] at h
    injection h with h2
    rw [← h2]
    simp
  | cons c0 cs ih =>
    intro x0 entries h yy xx v
    rw [parseRow] at h
    have hshift : ∀ entries2, parseRow y (x0 + 1) cs = Except.ok entries2 →
        (((yy, xx), v) ∈ entries2 ↔
          (yy = y ∧ x0 + 1 ≤ xx ∧ ∃ c, cs[xx - (x0 + 1)]? = some c ∧
            c.isWhitespace = false ∧ c.isDigit = true ∧ v = c.toNat - 48 ∧ 1 ≤ v)) :=
      fun entries2 h2 => ih (x0 + 1) entries2 h2 yy xx v
    by_cases hws0 : c0.isWhitespace
    · rw [if_pos hws0] at h
      rw [hshift entries h]
      constructor
      · rintro ⟨h1, h2, c, hc, hcw, hcd, hv, hv1⟩
        refine ⟨h1, by omega, c, ?_, hcw, hcd, hv, hv1⟩
        rw [show xx - x0 = (xx - (x0 + 1)) + 1 by omega, List.getElem?_cons_succ]
        exact hc
      · rintro ⟨h1, h2, c, hc, hcw, hcd, hv, hv1⟩
        by_cases hxx : xx = x0
        · subst hxx
          rw [show xx - xx = 0 by omega, List.getElem?_cons_zero] at hc
          injection hc with hc2
          rw [← hc2] at hcw
          rw [hws0] at hcw
          exact absurd hcw (by simp)
        · refine ⟨h1, by omega, c, ?_, hcw, hcd, hv, hv1⟩
          rw [show xx - x0 = (xx - (x0 + 1)) + 1 by omega, List.getElem?_cons_succ] at hc
          exact hc
    · rw [if_neg hws0] at h
      by_cases hx : 9 ≤ x0
      · rw [if_pos hx] at h; exact absurd h (by simp)
      · rw [if_neg hx] at h
        by_cases hd : c0.isDigit
        · rw [show pyIntChar c0 = .ok (c0.toNat - 48) from by simp [pyIntChar, hd]] at h
          simp only at h
          by_cases h0 : c0.toNat - 48 = 0
          · rw [if_pos h0] at h
            rw [hshift entries h]
            constructor
            · rintro ⟨h1, h2, c, hc, hcw, hcd, hv, hv1⟩
              refine ⟨h1, by omega, c, ?_, hcw, hcd, hv, hv1⟩
              rw [show xx - x0 = (xx - (x0 + 1)) + 1 by omega, List.getElem?_cons_succ]
              exact hc
            · rintro ⟨h1, h2, c, hc, hcw, hcd, hv, hv1⟩
              by_cases hxx : xx = x0
              · subst hxx
                rw [show xx - xx = 0 by omega, List.getElem?_cons_zero] at hc
                injection hc with hc2
                rw [← hc2] at hv
                omega
              · refine ⟨h1, by omega, c, ?_, hcw, hcd, hv, hv1⟩
                rw [show xx - x0 = (xx - (x0 + 1)) + 1 by omega,
                  List.getElem?_cons_succ] at hc
                exact hc
          · rw [if_neg h0] at h
            by_cases hr : 0 < c0.toNat - 48 ∧ c0.toNat - 48 < 10
            · rw [if_pos hr] at h
              cases hrec : parseRow y (x0 + 1) cs with
              | error e => rw [hrec] at h; exact absurd h (by simp)
              | ok entries2 =>
                rw [hrec] at h
                injection h with h2
                rw [← h2, List.mem_cons]
                rw [hshift entries2 hrec]
                constructor
                · rintro (he | ⟨h1, h2x, c, hc, hcw, hcd, hv, hv1⟩)
                  · injection he with he1 he2
                    injection he1 with hey hex
                    refine ⟨hey, by omega, c0, ?_, by simpa using hws0, hd, by omega,
                      by omega⟩
                    rw [hex, show x0 - x0 = 0 by omega, List.getElem?_cons_zero]
                  · refine ⟨h1, by omega, c, ?_, hcw, hcd, hv, hv1⟩
                    rw [show xx - x0 = (xx - (x0 + 1)) + 1 by omega,
                      List.getElem?_cons_succ]
                    exact hc
                · rintro ⟨h1, h2x, c, hc, hcw, hcd, hv, hv1⟩
                  by_cases hxx : xx = x0
                  · subst hxx
                    rw [show xx - xx = 0 by omega, List.getElem?_cons_zero] at hc
                    injection hc with hc2
                    left
                    rw [h1, hv, hc2]
                  · right
                    refine ⟨h1, by omega, c, ?_, hcw, hcd, hv, hv1⟩
                    rw [show xx - x0 = (xx - (x0 + 1)) + 1 by omega,
                      List.getElem?_cons_succ] at hc
                    exact hc
            · rw [if_neg hr] at h; exact absurd h (by simp)
        · rw [show pyIntChar c0 = .error "invalid literal for int" from by
            simp [pyIntChar, hd]] at h
          exact absurd h (by simp)

theorem parseLines_rows :
    ∀ (lines : List String) (y0 : Nat) (entries : List ((Nat × Nat) × Nat)),
      parseLines y0 lines = .ok entries →
      ∀ i l, lines[i]? = some l → pyIsSpace l = false → y0 + i < 9 := by
  intro lines
  induction lines with
  | nil => intro y0 entries h i l hl; simp at hl
  | cons l0 rest ih =>
    intro y0 entries h i l hl hsp
    rw [parseLines] at h
    by_cases hs0 : pyIsSpace l0
    · rw [if_pos hs0] at h
      cases i with
      | zero =>
        simp only [List.getElem?_cons_zero, Option.some.injEq] at hl
        rw [← hl] at hsp
        rw [hs0] at hsp
        exact absurd hsp (by simp)
      | succ j =>
        simp only [List.getElem?_cons_succ] at hl
        have := ih (y0 + 1) entries h j l hl hsp
        omega
    · rw [if_neg hs0] at h
      by_cases hy : 9 ≤ y0
      · rw [if_pos hy] at h; exact absurd h (by simp)
      · rw [if_neg hy] at h
        cases hrow : parseRow y0 0 l0.toList with
        | error e => rw [hrow] at h; exact absurd h (by simp)
        | ok rowE =>
          rw [hrow] at h
          cases hrest : parseLines (y0 + 1) rest with
          | error e => rw [hrest] at h; exact absurd h (by simp)
          | ok restE =>
            rw [hrest] at h
            cases i with
            | zero => omega
            | succ j =>
              simp only [List.getElem?_cons_succ] at hl
              have := ih (y0 + 1) restE hrest j l hl hsp
              omega

theorem parseLines_mem :
    ∀ (lines : List String) (y0 : Nat) (entries : List ((Nat × Nat) × Nat)),
      parseLines y0 lines = .ok entries →
      ∀ yy xx v, ((yy, xx), v) ∈ entries ↔
        (y0 ≤ yy ∧ ∃ l c, lines[yy - y0]? = some l ∧ pyIsSpace l = false ∧
          l.toList[xx]? = some c ∧ c.isWhitespace = false ∧ c.isDigit = true ∧
          v = c.toNat - 48 ∧ 1 ≤ v) := by
  intro lines
  induction lines with
  | nil =>
    intro y0 entries h yy xx v
    rw [parseLines] at h
    injection h with h2
    rw [← h2]
    simp
  | cons l0 rest ih =>
    intro y0 entries h yy xx v
    rw [parseLines] at h
    by_cases hs0 : pyIsSpace l0
    · rw [if_pos hs0] at h
      rw [ih (y0 + 1) entries h yy xx v]
      constructor
      · rintro ⟨h1, l, c, hl, hls, hc, hcw, hcd, hv, hv1⟩
        refine ⟨by omega, l, c, ?_, hls, hc, hcw, hcd, hv, hv1⟩
        rw [show yy - y0 = (yy - (y0 + 1)) + 1 by omega, List.getElem?_cons_succ]
        exact hl
      · rintro ⟨h1, l, c, hl, hls, hc, hcw, hcd, hv, hv1⟩
        by_cases hyy : yy = y0
        · subst hyy
          rw [show yy - yy = 0 by omega, List.getElem?_cons_zero] at hl
          injection hl with hl2
          rw [← hl2] at hls
          rw [hs0] at hls
          exact absurd hls (by simp)
        · refine ⟨by omega, l, c, ?_, hls, hc, hcw, hcd, hv, hv1⟩
          rw [show yy - y0 = (yy - (y0 + 1)) + 1 by omega, List.getElem?_cons_succ] at hl
          exact hl
    · rw [if_neg hs0] at h
      by_cases hy : 9 ≤ y0
      · rw [if_pos hy] at h; exact absurd h (by simp)
      · rw [if_neg hy] at h
        cases hrow : parseRow y0 0 l0.toList with
        | error e => rw [hrow] at h; exact absurd h (by simp)
        | ok rowE =>
          rw [hrow] at h
          cases hrest : parseLines (y0 + 1) rest with
          | error e => rw [hrest] at h; exact absurd h (by simp)
          | ok restE =>
            rw [hrest] at h
            injection h with h2
            rw [← h2, List.mem_append]
            rw [parseRow_mem y0 l0.toList 0 rowE hrow yy xx v]
            rw [ih (y0 + 1) restE hrest yy xx v]
            constructor
            · rintro (⟨h1, _, c, hc, hcw, hcd, hv, hv1⟩ | ⟨h1, l, c, hl, hls, hc, hcw, hcd, hv, hv1⟩)
              · refine ⟨by omega, l0, c, ?_, by simpa using hs0, by simpa using hc,
                  hcw, hcd, hv, hv1⟩
                rw [h1, show y0 - y0 = 0 by omega, List.getElem?_cons_zero]
              · refine ⟨by omega, l, c, ?_, hls, hc, hcw, hcd, hv, hv1⟩
                rw [show yy - y0 = (yy - (y0 + 1)) + 1 by omega, List.getElem?_cons_succ]
                exact hl
            · rintro ⟨h1, l, c, hl, hls, hc, hcw, hcd, hv, hv1⟩
              by_cases hyy : yy = y0
              · subst hyy
                rw [show yy - yy = 0 by omega, List.getElem?_cons_zero] at hl
                injection hl with hl2
                subst hl2
                left
                exact ⟨rfl, by omega, c, by simpa using hc, hcw, hcd, hv, hv1⟩
              · right
                refine ⟨by omega, l, c, ?_, hls, hc, hcw, hcd, hv, hv1⟩
                rw [show yy - y0 = (yy - (y0 + 1)) + 1 by omega,
                  List.getElem?_cons_succ] at hl
                exact hl

theorem parseLines_cols :
    ∀ (lines : List String) (y0 : Nat) (entries : List ((Nat × Nat) × Nat)),
      parseLines y0 lines = .ok entries →
      ∀ (i : Nat) (l : String) (j : Nat) (c : Char), lines[i]? = some l →
        pyIsSpace l = false → l.toList[j]? = some c →
        c.isWhitespace = false → (j < 9 ∧ c.isDigit = true) := by
  intro lines
  induction lines with
  | nil => intro y0 entries h i l j c hl; simp at hl
  | cons l0 rest ih =>
    intro y0 entries h i l j c hl hsp hc hcw
    rw [parseLines] at h
    by_cases hs0 : pyIsSpace l0
    · rw [if_pos hs0] at h
      cases i with
      | zero =>
        simp only [List.getElem?_cons_zero, Option.some.injEq] at hl
        rw [← hl] at hsp
        rw [hs0] at hsp
        exact absurd hsp (by simp)
      | succ j2 =>
        simp only [List.getElem?_cons_succ] at hl
        exact ih (y0 + 1) entries h j2 l j c hl hsp hc hcw
    · rw [if_neg hs0] at h
      by_cases hy : 9 ≤ y0
      · rw [if_pos hy] at h; exact absurd h (by simp)
      · rw [if_neg hy] at h
        cases hrow : parseRow y0 0 l0.toList with
        | error e => rw [hrow] at h; exact absurd h (by simp)
        | ok rowE =>
          rw [hrow] at h
          cases hrest : parseLines (y0 + 1) rest with
          | error e => rw [hrest] at h; exact absurd h (by simp)
          | ok restE =>
            rw [hrest] at h
            cases i with
            | zero =>
              simp only [List.getElem?_cons_zero, Option.some.injEq] at hl
              have := parseRow_cols y0 l0.toList 0 rowE hrow j c (by rw [hl]; exact hc) hcw
              exact ⟨by omega, this.2⟩
            | succ j2 =>
              simp only [List.getElem?_cons_succ] at hl
              exact ih (y0 + 1) restE hrest j2 l j c hl hsp hc hcw

/-- **C9.**  `parseAssignment` reads a textual grid (rows are lines, columns
are characters).  Whenever it returns an initial assignment rather than
raising: every non-blank line sits among the first nine rows (a tenth
non-blank row would have triggered the `"Too many rows"` assertion), every
non-whitespace character sits in the first nine columns and is a decimal
digit (a tenth column triggers the `"Too many columns"` assertion, a
non-digit raises `int()`'s `ValueError` — nothing is truncated or clamped),
and the produced entries are exactly the cells holding a digit `1`-`9`,
mapped to that digit; `'0'` and blank characters produce no entry. -/
theorem claim_C9_parseAssignment_fail_fast (lines : List String)
    (entries : List ((Nat × Nat) × Nat)) (hok : parseAssignment lines = .ok entries) :
    (∀ (i : Nat) (l : String), lines[i]? = some l → pyIsSpace l = false → i < 9) ∧
    (∀ (i : Nat) (l : String) (j : Nat) (c : Char), lines[i]? = some l →
      pyIsSpace l = false → l.toList[j]? = some c →
      c.isWhitespace = false → (j < 9 ∧ c.isDigit = true)) ∧
    (∀ y x v, ((y, x), v) ∈ entries ↔ ∃ l c, lines[y]? = some l ∧ pyIsSpace l = false ∧
      l.toList[x]? = some c ∧ c.isWhitespace = false ∧ c.isDigit = true ∧
      v = c.toNat - 48 ∧ 1 ≤ v) := by
  unfold parseAssignment at hok
  refine ⟨?_, ?_, ?_⟩
  · intro i l hl hsp
    have := parseLines_rows lines 0 entries hok i l hl hsp
    omega
  · exact fun i l j c hl hsp hc hcw => parseLines_cols lines 0 entries hok i l j c hl hsp hc hcw
  · intro y x v
    rw [parseLines_mem lines 0 entries hok y x v]
    constructor
    · rintro ⟨h1, l, c, hl, hrest⟩
      rw [show y - 0 = y by omega] at hl
      exact ⟨l, c, hl, hrest⟩
    · rintro ⟨l, c, hl, hrest⟩
      rw [← show y - 0 = y by omega] at hl
      exact ⟨by omega, l, c, hl, hrest⟩

/-- Witness for C9: parsing the single line `"12"` produces exactly the
entries for cells `(0,0) ↦ 1` and `(0,1) ↦ 2`; here the characterization is
instantiated at cell `(0,0)`. -/
theorem claim_C9_witness :
    ((0, 0), 1) ∈ [((0, 0), 1), ((0, 1), 2)] ↔
      ∃ l c, (["12"] : List String)[0]? = some l ∧ pyIsSpace l = false ∧
        l.toList[0]? = some c ∧ c.isWhitespace = false ∧ c.isDigit = true ∧
        1 = c.toNat - 48 ∧ 1 ≤ 1 :=
  (claim_C9_parseAssignment_fail_fast ["12"] [((0, 0), 1), ((0, 1), 2)] rfl).2.2 0 0 1

end ClaimC9

section ClaimC3

variable {V : Type} {α : Type} [DecidableEq V] [DecidableEq α]

/-- Arc `(x, y)` is consistent in `d`: every value of `x` has a supporting
value of `y`. -/
def supportedD (csp : CSP V α) (d : Domains V α) (x y : V) : Prop :=
  ∀ v ∈ lookupD d x, ∃ w ∈ lookupD d y, csp.isValidPairwise x v y w = true

theorem mem_remaining_not_assigned {csp : CSP V α} {a : Assignment V α} {v : V}
    (h : v ∈ csp.remainingVariables a) : v ∉ keysOf a := by
  unfold CSP.remainingVariables at h
  rw [List.mem_filter] at h
  simpa using h.2

theorem foldl_enqueue_superset (csp : CSP V α) (a : Assignment V α) (t : V) :
    ∀ (l : List V) (q : List (V × V)) (x : V × V), x ∈ q →
      x ∈ l.foldl (fun acc n =>
        if n ∈ keysOf a then acc
        else if (n, t) ∈ acc then acc else acc ++ [(n, t)]) q := by
  intro l
  induction l with
  | nil => intro q x hx; exact hx
  | cons n rest ih =>
    intro q x hx
    rw [List.foldl_cons]
    apply ih
    by_cases h1 : n ∈ keysOf a
    · rwa [if_pos h1]
    · rw [if_neg h1]
      by_cases h2 : (n, t) ∈ q
      · rwa [if_pos h2]
      · rw [if_neg h2]
        exact List.mem_append_left _ hx

theorem enqueueNeighbors_superset (csp : CSP V α) (a : Assignment V α) (t : V)
    (q : List (V × V)) (x : V × V) (hx : x ∈ q) : x ∈ enqueueNeighbors csp a t q :=
  foldl_enqueue_superset csp a t (csp.neighbors t) q x hx

theorem foldl_enqueue_mem (csp : CSP V α) (a : Assignment V α) (t : V) :
    ∀ (l : List V) (q : List (V × V)) (n : V), n ∈ l → n ∉ keysOf a →
      (n, t) ∈ l.foldl (fun acc m =>
        if m ∈ keysOf a then acc
        else if (m, t) ∈ acc then acc else acc ++ [(m, t)]) q := by
  intro l
  induction l with
  | nil => intro q n hn; simp at hn
  | cons m rest ih =>
    intro q n hn hna
    rw [List.foldl_cons]
    rcases List.mem_cons.1 hn with he | he
    · subst he
      refine foldl_enqueue_superset csp a t rest _ (n, t) ?_
      rw [if_neg hna]
      by_cases h2 : (n, t) ∈ q
      · rwa [if_pos h2]
      · rw [if_neg h2]
        exact List.mem_append_right _ (List.mem_singleton_self _)
    · exact ih _ n he hna

theorem enqueueNeighbors_mem (csp : CSP V α) (a : Assignment V α) (t : V)
    (q : List (V × V)) (n : V) (hn : n ∈ csp.neighbors t) (hna : n ∉ keysOf a) :
    (n, t) ∈ enqueueNeighbors csp a t q :=
  foldl_enqueue_mem csp a t (csp.neighbors t) q n hn hna

theorem initialQueue_mem_intro {u : List V} {t hd : V} (ht : t ∈ u) (hhd : hd ∈ u)
    (hne : hd ≠ t) : (t, hd) ∈ initialQueue u := by
  unfold initialQueue
  rw [List.mem_flatMap]
  exact ⟨t, ht, List.mem_map.2 ⟨hd, List.mem_filter.2 ⟨hhd, by simpa using hne⟩, rfl⟩⟩

theorem rIV_false_supported (csp : CSP V α) (d : Domains V α) (t hd : V)
    (h : (csp.removeInconsistentValues d t hd).1 = false) : supportedD csp d t hd := by
  unfold CSP.removeInconsistentValues at h
  intro v hv
  by_cases hs : setEqB ((lookupD d t).filter
      (fun x => (lookupD d hd).any (fun y => csp.isValidPairwise t x hd y))) (lookupD d t)
  · unfold setEqB at hs
    rw [Bool.and_eq_true, List.all_eq_true, List.all_eq_true] at hs
    have := hs.2 v hv
    simp only [decide_eq_true_eq] at this
    have hmem := List.mem_filter.1 this
    rw [List.any_eq_true] at hmem
    obtain ⟨w, hw, hvw⟩ := hmem.2
    exact ⟨w, hw, hvw⟩
  · simp [hs] at h

theorem rIV_true_lookup_self (csp : CSP V α) (d : Domains V α) (t hd : V)
    (h : (csp.removeInconsistentValues d t hd).1 = true) :
    lookupD (csp.removeInconsistentValues d t hd).2 t =
      (lookupD d t).filter (fun x => (lookupD d hd).any
        (fun y => csp.isValidPairwise t x hd y)) := by
  unfold CSP.removeInconsistentValues at h ⊢
  by_cases hs : setEqB ((lookupD d t).filter
      (fun x => (lookupD d hd).any (fun y => csp.isValidPairwise t x hd y))) (lookupD d t)
  · simp [hs] at h
  · simp only [show setEqB ((lookupD d t).filter
        (fun x => (lookupD d hd).any (fun y => csp.isValidPairwise t x hd y)))
        (lookupD d t) = false by simpa using hs, Bool.false_eq_true, if_false]
    exact lookupD_insertEntry_self d t _

theorem rIV_true_supported (csp : CSP V α) (d : Domains V α) (t hd : V)
    (hch : (csp.removeInconsistentValues d t hd).1 = true) (hne : hd ≠ t) :
    supportedD csp (csp.removeInconsistentValues d t hd).2 t hd := by
  intro v hv
  rw [rIV_true_lookup_self csp d t hd hch] at hv
  have hmem := List.mem_filter.1 hv
  rw [List.any_eq_true] at hmem
  obtain ⟨w, hw, hvw⟩ := hmem.2
  refine ⟨w, ?_, hvw⟩
  rwa [rIV_lookup_ne csp d t hd hd hne]

theorem ac3Loop_arcConsistent (csp : CSP V α) (a : Assignment V α)
    (hsym : ∀ u v, u ∈ csp.neighbors v → v ∈ csp.neighbors u)
    (hfree : ∀ u v, v ∉ csp.neighbors u → ∀ x y, csp.isValidPairwise u x v y = true)
    (d : Domains V α) (q : List (V × V)) :
    ∀ d2, csp.ac3Loop a d q = some d2 →
      (∀ x ∈ csp.remainingVariables a, ∀ y ∈ csp.remainingVariables a, x ≠ y →
        ((x, y) ∈ q ∨ supportedD csp d x y)) →
      arcConsistentOn csp a d2 := by
  induction d, q using CSP.ac3Loop.induct csp a with
  | case1 d =>
    intro d2 h hinv
    rw [ac3Loop_nil] at h
    injection h with h2
    subst h2
    intro x hx y hy hxy v hv
    rcases hinv x hx y hy hxy with hq | hs
    · simp at hq
    · exact hs v hv
  | case2 d t hd rest r hempty =>
    intro d2 h
    rw [ac3Loop_cons, if_pos hempty] at h
    simp at h
  | case3 d t hd rest r q1 hempty ih =>
    intro d2 h hinv
    rw [ac3Loop_cons, if_neg hempty] at h
    apply ih d2 h
    have hq1 : q1 = if (csp.removeInconsistentValues d t hd).1 = true then
        enqueueNeighbors csp a t rest else rest := rfl
    have hr : r = csp.removeInconsistentValues d t hd := rfl
    intro x hx y hy hxy
    rw [hq1, hr]
    by_cases hch : (csp.removeInconsistentValues d t hd).1 = true
    · rw [if_pos hch]
      by_cases hyt : y = t
      · subst hyt
        by_cases hnb : x ∈ csp.neighbors y
        · exact Or.inl (enqueueNeighbors_mem csp a y rest x hnb
            (mem_remaining_not_assigned hx))
        · right
          intro v hv
          have hvalid := hfree x y (fun hc => hnb (hsym y x hc))
          have hne2 : lookupD (csp.removeInconsistentValues d y hd).2 y ≠ [] := by
            intro he
            apply hempty
            rw [hr, he]
            rfl
          obtain ⟨w, hw⟩ := List.exists_mem_of_ne_nil _ hne2
          exact ⟨w, hw, hvalid v w⟩
      · rcases hinv x hx y hy hxy with hq | hs
        · rcases List.mem_cons.1 hq with he | he
          · injection he with he1 he2
            right
            rw [he1, he2]
            exact rIV_true_supported csp d t hd hch (he2 ▸ hyt)
          · exact Or.inl (enqueueNeighbors_superset csp a t rest _ he)
        · right
          intro v hv
          have hvx : v ∈ lookupD d x := by
            by_cases hxt : x = t
            · subst hxt
              rw [rIV_true_lookup_self csp d x hd hch] at hv
              exact List.mem_of_mem_filter hv
            · rwa [rIV_lookup_ne csp d t hd x hxt] at hv
          obtain ⟨w, hw, hvw⟩ := hs v hvx
          refine ⟨w, ?_, hvw⟩
          rwa [rIV_lookup_ne csp d t hd y hyt]
    · rw [if_neg hch]
      have hr2 : (csp.removeInconsistentValues d t hd).2 = d :=
        rIV_false_eq csp d t hd (by simpa using hch)
      rw [hr2]
      rcases hinv x hx y hy hxy with hq | hs
      · rcases List.mem_cons.1 hq with he | he
        · injection he with he1 he2
          subst he1; subst he2
          exact Or.inr (rIV_false_supported csp d x y (by simpa using hch))
        · exact Or.inl he
      · exact Or.inr hs

/-- **C3.**  For every assignment and domain map (over a problem definition
satisfying the interface contract: `neighbors` symmetric and non-neighbor
pairs unconstrained), if some variable's domain becomes empty during `ac3`
then `ac3` stops and returns the failure signal `None` — equivalently, a
returned domain map never contains a domain that became newly empty — and
on success the returned map is fully arc-consistent: every value in every
unassigned variable's domain has a supporting value in every other
unassigned variable's domain under `isValidPairwise`. -/
theorem claim_C3_ac3_failure_and_consistency (csp : CSP V α) (a : Assignment V α)
    (d : Domains V α) (ov : Option V)
    (hsym : ∀ u v, u ∈ csp.neighbors v → v ∈ csp.neighbors u)
    (hfree : ∀ u v, v ∉ csp.neighbors u → ∀ x y, csp.isValidPairwise u x v y = true) :
    ∀ d2, CSP.ac3 csp a d ov = some d2 →
      (∀ k, lookupD d2 k = [] → lookupD d k = []) ∧ arcConsistentOn csp a d2 := by
  intro d2 h
  rw [CSP.ac3] at h
  refine ⟨ac3Loop_no_new_empty csp a d _ d2 h, ?_⟩
  apply ac3Loop_arcConsistent csp a hsym hfree d _ d2 h
  intro x hx y hy hxy
  exact Or.inl (initialQueue_mem_intro hx hy (Ne.symm hxy))

theorem pairCSP_neighbors_symm : ∀ u v, u ∈ pairCSP.neighbors v → v ∈ pairCSP.neighbors u := by
  intro u v h
  by_cases h0 : v = 0
  · subst h0
    simp [pairCSP] at h
    subst h
    simp [pairCSP]
  · by_cases h1 : v = 1
    · subst h1
      simp [pairCSP] at h
      subst h
      simp [pairCSP]
    · simp [pairCSP, h0, h1] at h

theorem pairCSP_nonneighbors_free :
    ∀ u v, v ∉ pairCSP.neighbors u → ∀ x y, pairCSP.isValidPairwise u x v y = true := by
  intro u v hnb x y
  simp only [pairCSP] at hnb ⊢
  by_cases hc : (u = 0 ∧ v = 1) ∨ (u = 1 ∧ v = 0)
  · exfalso
    rcases hc with ⟨h1, h2⟩ | ⟨h1, h2⟩ <;> (subst h1; subst h2; simp at hnb)
  · rw [if_neg hc]

/-- Witness for C3: on the two-variable CSP with domains `{1}` and `{2}`
(arc-consistent and nonempty), `ac3` succeeds and the theorem certifies the
result empties no domain and is arc-consistent. -/
theorem claim_C3_witness :
    (∀ k, lookupD [(0, [1]), (1, [2])] k = [] → lookupD [(0, [1]), (1, [2])] k = []) ∧
    arcConsistentOn pairCSP [] [(0, [1]), (1, [2])] := by
  have hac : CSP.ac3 pairCSP [] [(0, [1]), (1, [2])] none = some [(0, [1]), (1, [2])] := by
    rw [CSP.ac3]
    rw [show initialQueue (pairCSP.remainingVariables []) = [(0, 1), (1, 0)] from rfl]
    apply ac3Loop_consistent_drain
    intro th hth
    fin_cases hth
    · exact ⟨by decide, by decide⟩
    · exact ⟨by decide, by decide⟩
  exact claim_C3_ac3_failure_and_consistency pairCSP [] [(0, [1]), (1, [2])] none
    pairCSP_neighbors_symm pairCSP_nonneighbors_free [(0, [1]), (1, [2])] hac

end ClaimC3
